import Mathlib

/-!
# LC709203F battery monitor driver (`src/ESP32_Bat_test/LC709203F.cpp`)

A shallow embedding of the driver's register access layer: the CRC-8 routine, the
`write16` / `read16` bus transactions and the accessors built on them.

Machine integers are natural numbers (or integers) reduced modulo `2 ^ w` where the
C++ type is `w` bits wide.  The two-wire bus (`Wire`) is an external collaborator: the
driver's calls to it are recorded in order, and the values it returns are given by an
arbitrary function of the call history.
-/

namespace LC709203F

/-! ## Constants of `LC709203F.h` -/

/-- Constants that `LC709203F.cpp` takes from `LC709203F.h`: the bus address, the
register addresses and the enumerators used by `begin`. -/
structure Header where
  LC709203F_I2C_ADDR : Nat
  LC709203F_RO_ICVERSION : Nat
  LC709203F_WO_INITRSOC : Nat
  LC709203F_RO_CELLVOLTAGE : Nat
  LC709203F_RO_ITE : Nat
  LC709203F_RW_RSOC : Nat
  LC709203F_RW_CELLTEMPERATURE : Nat
  LC709203F_RW_STATUSBIT : Nat
  LC709203F_RW_APA : Nat
  LC709203F_RW_ALARMRSOC : Nat
  LC709203F_RW_ALARMVOLT : Nat
  LC709203F_RW_POWERMODE : Nat
  LC709203F_RW_PROFILE : Nat
  LC709203F_RW_THERMISTORB : Nat
  LC709203F_POWER_OPERATE : Nat
  LC709203F_APA_500MAH : Nat
  LC709203F_TEMPERATURE_THERMISTOR : Nat

/-! ## Integer conversions and Arduino helpers -/

/-- Conversion to `uint8_t`. -/
def toUInt8 (i : Int) : Nat := (i % 256).toNat

/-- Conversion to `uint16_t`. -/
def toUInt16 (i : Int) : Nat := (i % 65536).toNat

/-- Conversion to `int16_t` (two's complement). -/
def toInt16 (i : Int) : Int :=
  if i % 65536 < 32768 then i % 65536 else i % 65536 - 65536

/-- Arduino `lowByte(w)`: `(uint8_t) ((w) & 0xff)`. -/
def lowByte (w : Nat) : Nat := (w &&& 0xff) % 256

/-- Arduino `highByte(w)`: `(uint8_t) ((w) >> 8)`. -/
def highByte (w : Nat) : Nat := (w >>> 8) % 256

/-- Arduino `word(h, l)`: `(h << 8) | l` as a `uint16_t`. -/
def word (h l : Nat) : Nat := ((h <<< 8) ||| l) % 65536

/-! ## CRC-8 -/

/-- The constant `POLYNOMIAL` of `crc8`. -/
def POLYNOMIAL : Nat := 0x07

/-- One pass of the inner loop body of `crc8`:
`crc = (crc & 0x80) ? (crc << 1) ^ POLYNOMIAL : (crc << 1)`, stored in a `uint8_t`. -/
def crc8Shift (crc : Nat) : Nat :=
  if crc &&& 0x80 ≠ 0 then ((crc <<< 1) ^^^ POLYNOMIAL) % 256 else (crc <<< 1) % 256

/-- The inner loop `for (int i = 8; i; --i)` of `crc8`, started at `i`. -/
def crc8Bits : Nat → Nat → Nat
  | 0, crc => crc
  | i + 1, crc => crc8Bits i (crc8Shift crc)

/-- The outer loop `for (int j = len; j; --j)` of `crc8`; the list holds the `j` bytes that
`data` still points to. -/
def crc8Loop : List Nat → Nat → Nat
  | [], crc => crc
  | d :: rest, crc => crc8Loop rest (crc8Bits 8 ((crc ^^^ d) % 256))

/-- The function `crc8(data, len)`; the argument is the list of the `len` bytes at `data`. -/
def crc8 (data : List Nat) : Nat := crc8Loop data 0x00

/-! ## The bus transport -/

/-- A call made on the `Wire` object. -/
inductive WireCall where
  | begin
  | beginTransmission (address : Nat)
  | write (b : Nat)
  | endTransmission (sendStop : Bool)
  | requestFrom (address : Nat) (quantity : Nat)
  | read
  deriving DecidableEq

/-- A behaviour of the bus transport: for a history of calls, the value returned by the
last call of the history (the count of `write` and `requestFrom`, the status of
`endTransmission`, the byte or `-1` of `read`). -/
abbrev TwoWire := List WireCall → Int

/-- The global `i2c_address` of the driver and the calls made on `Wire` so far, oldest
first. -/
structure State where
  i2c_address : Nat
  wire : List WireCall
  deriving DecidableEq

/-- State at program start: `uint8_t i2c_address = LC709203F_I2C_ADDR`, no call made. -/
def initialState (hdr : Header) : State :=
  { i2c_address := hdr.LC709203F_I2C_ADDR % 256, wire := [] }

/-- Make one call on `Wire`: record it and give back what the transport returns. -/
def wireCall (tw : TwoWire) (c : WireCall) (s : State) : Int × State :=
  (tw (s.wire ++ [c]), { s with wire := s.wire ++ [c] })

/-! ## Register transactions -/

/-- The function `LC709203F::write16(uint8_t regAddress, uint16_t data)`.  The values
returned by `Wire.write` and `Wire.endTransmission` are dropped, as in the source. -/
def write16 (tw : TwoWire) (regAddress data : Nat) (s : State) : State :=
  let regAddress := regAddress % 256
  let data := data % 65536
  let crcArray : List Nat := [0x16, regAddress, lowByte data, highByte data, 0]
  let crcArray := crcArray.set 4 (crc8 (crcArray.take 4))
  let s := (wireCall tw (.beginTransmission s.i2c_address) s).2
  let s := (wireCall tw (.write regAddress) s).2
  let s := (wireCall tw (.write (crcArray.getD 2 0)) s).2
  let s := (wireCall tw (.write (crcArray.getD 3 0)) s).2
  let s := (wireCall tw (.write (crcArray.getD 4 0)) s).2
  (wireCall tw (.endTransmission true) s).2

/-- The function `LC709203F::read16(uint8_t regAddress)`, returning an `int16_t`. -/
def read16 (tw : TwoWire) (regAddress : Nat) (s : State) : Int × State :=
  let regAddress := regAddress % 256
  let s := (wireCall tw (.beginTransmission s.i2c_address) s).2
  let s := (wireCall tw (.write regAddress) s).2
  let s := (wireCall tw (.endTransmission false) s).2
  let s := (wireCall tw (.requestFrom s.i2c_address 2) s).2
  let r := wireCall tw .read s
  let lowByteData := toUInt8 r.1
  let r := wireCall tw .read r.2
  let highByteData := toUInt8 r.1
  (toInt16 (word highByteData lowByteData), r.2)

/-! ## Binary floating point

Finite values only: `(-1)^neg * m * 2^e`.  Every operation returns the exact result
rounded to nearest, ties to even, in the given format (IEEE 754 default rounding).  NaN and
the infinities are not represented; a result beyond the largest finite value is kept as
its rounded dyadic value, for which the conversion to an integer type is undefined in any
case. -/

/-- A finite binary floating-point value `(-1)^neg * m * 2^e`. -/
structure Fp where
  neg : Bool
  m : Nat
  e : Int
  deriving DecidableEq

/-- A binary format: significand precision in bits and the exponent of the least
positive (subnormal) value. -/
structure Format where
  prec : Nat
  emin : Int

/-- The type `float`: IEEE 754 binary32. -/
def binary32 : Format := ⟨24, -149⟩

/-- The type `double`: IEEE 754 binary64. -/
def binary64 : Format := ⟨53, -1074⟩

/-- The number of halvings that bring `n` below 2, at most `fuel` of them. -/
def log2Fuel : Nat → Nat → Nat
  | 0, _ => 0
  | fuel + 1, n => if n < 2 then 0 else log2Fuel fuel (n / 2) + 1

/-- For positive `N` and `D`, the integer part of the base-2 logarithm of `N / D`. -/
def floorLog2Ratio (N D : Nat) : Int :=
  let k : Int := (log2Fuel N N : Int) - (log2Fuel D D : Int)
  if D <<< k.toNat ≤ N <<< (-k).toNat then k else k - 1

/-- The value `(N / D) * 2^e` (with `D` positive) rounded to nearest, ties to even, in
format `f`, with sign `neg`. -/
def roundNearestEven (f : Format) (neg : Bool) (N D : Nat) (e : Int) : Fp :=
  if N = 0 then ⟨neg, 0, 0⟩ else
  let x := max f.emin (e + floorLog2Ratio N D - ((f.prec : Int) - 1))
  let sh := e - x
  let N' := N <<< sh.toNat
  let D' := D <<< (-sh).toNat
  let q := N' / D'
  let r := N' % D'
  let m := if D' < 2 * r ∨ (2 * r = D' ∧ q % 2 = 1) then q + 1 else q
  ⟨neg, m, x⟩

namespace Fp

/-- The rational number a value stands for. -/
def toRat (a : Fp) : ℚ := (if a.neg then -1 else 1) * (a.m : ℚ) * (2 : ℚ) ^ a.e

/-- Multiplication in format `f`. -/
def mul (f : Format) (a b : Fp) : Fp :=
  roundNearestEven f (xor a.neg b.neg) (a.m * b.m) 1 (a.e + b.e)

/-- Division in format `f` by a non-zero value. -/
def div (f : Format) (a b : Fp) : Fp :=
  roundNearestEven f (xor a.neg b.neg) a.m b.m (a.e - b.e)

/-- Conversion of an unsigned integer to format `f`. -/
def ofNat (f : Format) (n : Nat) : Fp := roundNearestEven f false n 1 0

/-- The value of the decimal literal `num / den` in format `f`. -/
def ofRatio (f : Format) (num den : Nat) : Fp := roundNearestEven f false num den 0

/-- Conversion of a floating-point value to format `f`. -/
def convert (f : Format) (a : Fp) : Fp := roundNearestEven f a.neg a.m 1 a.e

/-- The magnitude with the fractional part discarded. -/
def trunc (a : Fp) : Nat := (a.m <<< a.e.toNat) >>> (-a.e).toNat

/-- Conversion to `uint16_t`: truncation toward zero; undefined (`none`) when the truncated
value is not a `uint16_t`. -/
def toUInt16 (a : Fp) : Option Nat :=
  if (a.neg = true ∧ a.trunc ≠ 0) ∨ 65536 ≤ a.trunc then none else some a.trunc

end Fp

/-! ## Public operations -/

/-- The function `LC709203F::setPowerMode(lc709203_powermode_t t)`. -/
def setPowerMode (tw : TwoWire) (hdr : Header) (t : Nat) (s : State) : State :=
  write16 tw hdr.LC709203F_RW_POWERMODE (t % 65536) s

/-- The function `LC709203F::setCellCapacity(lc709203_adjustment_t apa)`. -/
def setCellCapacity (tw : TwoWire) (hdr : Header) (apa : Nat) (s : State) : State :=
  write16 tw hdr.LC709203F_RW_APA (apa % 65536) s

/-- The function `LC709203F::setTemperatureMode(lc709203_tempmode_t t)`. -/
def setTemperatureMode (tw : TwoWire) (hdr : Header) (t : Nat) (s : State) : State :=
  write16 tw hdr.LC709203F_RW_STATUSBIT (t % 65536) s

/-- The function `LC709203F::setCellProfile(lc709203_cell_profile_t t)`. -/
def setCellProfile (tw : TwoWire) (hdr : Header) (t : Nat) (s : State) : State :=
  write16 tw hdr.LC709203F_RW_PROFILE (t % 65536) s

/-- The function `LC709203F::setAlarmRSOC(uint8_t percent)`. -/
def setAlarmRSOC (tw : TwoWire) (hdr : Header) (percent : Nat) (s : State) : State :=
  write16 tw hdr.LC709203F_RW_ALARMRSOC (percent % 256) s

/-- The function `LC709203F::setThermistorB(uint16_t beta)`. -/
def setThermistorB (tw : TwoWire) (hdr : Header) (beta : Nat) (s : State) : State :=
  write16 tw hdr.LC709203F_RW_THERMISTORB (beta % 65536) s

/-- The function `LC709203F::setAlarmVoltage(float voltage)`: `voltage * 1000` is a `float`
product, converted to the `uint16_t` parameter of `write16`. -/
def setAlarmVoltage (tw : TwoWire) (hdr : Header) (voltage : Fp) (s : State) : Option State :=
  match Fp.toUInt16 (Fp.mul binary32 voltage (Fp.ofNat binary32 1000)) with
  | none => none
  | some data => some (write16 tw hdr.LC709203F_RW_ALARMVOLT data s)

/-- The function `LC709203F::initRSOC()`. -/
def initRSOC (tw : TwoWire) (hdr : Header) (s : State) : State :=
  write16 tw hdr.LC709203F_WO_INITRSOC 0xAA55 s

/-- The function `LC709203F::begin()`. -/
def begin (tw : TwoWire) (hdr : Header) (s : State) : Bool × State :=
  let s := (wireCall tw .begin s).2
  let s := setPowerMode tw hdr hdr.LC709203F_POWER_OPERATE s
  let s := setCellCapacity tw hdr hdr.LC709203F_APA_500MAH s
  let s := setTemperatureMode tw hdr hdr.LC709203F_TEMPERATURE_THERMISTOR s
  (true, s)

/-- The function `LC709203F::getICversion()`. -/
def getICversion (tw : TwoWire) (hdr : Header) (s : State) : Nat × State :=
  let r := read16 tw hdr.LC709203F_RO_ICVERSION s
  (toUInt16 r.1, r.2)

/-- The function `LC709203F::cellVoltage_mV()`: `1000 * ( mV / 1000.0 )` is computed in
`double` and converted to the `uint16_t` result. -/
def cellVoltage_mV (tw : TwoWire) (hdr : Header) (s : State) : Option Nat × State :=
  let r := read16 tw hdr.LC709203F_RO_CELLVOLTAGE s
  let mV := toUInt16 r.1
  (Fp.toUInt16 (Fp.mul binary64 (Fp.ofNat binary64 1000)
      (Fp.div binary64 (Fp.ofNat binary64 mV) (Fp.ofRatio binary64 1000 1))), r.2)

/-- The function `LC709203F::cellRemainingPercent10()`. -/
def cellRemainingPercent10 (tw : TwoWire) (hdr : Header) (s : State) : Nat × State :=
  let r := read16 tw hdr.LC709203F_RO_ITE s
  (toUInt16 r.1, r.2)

/-- The function `LC709203F::cellStateOfCharge()`. -/
def cellStateOfCharge (tw : TwoWire) (hdr : Header) (s : State) : Nat × State :=
  let r := read16 tw hdr.LC709203F_RW_RSOC s
  (toUInt16 r.1, r.2)

/-- The function `LC709203F::getCellTemperature()`. -/
def getCellTemperature (tw : TwoWire) (hdr : Header) (s : State) : Nat × State :=
  let r := read16 tw hdr.LC709203F_RW_CELLTEMPERATURE s
  (toUInt16 r.1, r.2)

/-- The function `LC709203F::getThermistorBeta()`. -/
def getThermistorBeta (tw : TwoWire) (hdr : Header) (s : State) : Nat × State :=
  let r := read16 tw hdr.LC709203F_RW_THERMISTORB s
  (toUInt16 r.1, r.2)

/-! ## Vocabulary for stating properties -/

/-- The calls made on `Wire` between state `s` and a later state `t`. -/
def issued (s t : State) : List WireCall := t.wire.drop s.wire.length

/-- The bytes passed to `Wire.write` in a list of calls, in order. -/
def dataBytes : List WireCall → List Nat
  | [] => []
  | .write b :: cs => b :: dataBytes cs
  | _ :: cs => dataBytes cs

/-- The calls of one write transaction to bus address `address`: register address,
low byte, high byte and checksum of the 16-bit word `data`, then a stop. -/
def writeFrame (address regAddress data : Nat) : List WireCall :=
  [.beginTransmission address, .write regAddress, .write (data % 256), .write (data / 256),
   .write (crc8 [0x16, regAddress, data % 256, data / 256]), .endTransmission true]

/-- Whether a call takes data from the device: `requestFrom` or `read`. -/
def WireCall.isRead : WireCall → Bool
  | .requestFrom _ _ => true
  | .read => true
  | _ => false

/-- Whether a call opens a transmission. -/
def WireCall.isBeginTransmission : WireCall → Bool
  | .beginTransmission _ => true
  | _ => false

/-- The transport answers the two `Wire.read` calls of `read16(regAddress)`, started in
state `s`, with `b0` first and `b1` second. -/
def Delivers (tw : TwoWire) (s : State) (regAddress : Nat) (b0 b1 : Int) : Prop :=
  tw (s.wire ++ [.beginTransmission s.i2c_address, .write (regAddress % 256),
      .endTransmission false, .requestFrom s.i2c_address 2, .read]) = b0 ∧
  tw (s.wire ++ [.beginTransmission s.i2c_address, .write (regAddress % 256),
      .endTransmission false, .requestFrom s.i2c_address 2, .read, .read]) = b1

/-- The array `crcArray` of `write16(regAddress, data)` once `crcArray[4]` is assigned. -/
def crcArray (regAddress data : Nat) : List Nat :=
  let a : List Nat :=
    [0x16, regAddress % 256, lowByte (data % 65536), highByte (data % 65536), 0]
  a.set 4 (crc8 (a.take 4))

/-- The bus address a call names, if it names one. -/
def WireCall.address : WireCall → Option Nat
  | .beginTransmission a => some a
  | .requestFrom a _ => some a
  | _ => none

/-- The operations of the driver, with their arguments. -/
inductive Operation where
  | begin
  | getICversion
  | initRSOC
  | cellVoltage_mV
  | cellRemainingPercent10
  | cellStateOfCharge
  | getCellTemperature
  | setTemperatureMode (t : Nat)
  | setCellCapacity (apa : Nat)
  | setAlarmRSOC (percent : Nat)
  | setAlarmVoltage (voltage : Fp)
  | setPowerMode (t : Nat)
  | setCellProfile (t : Nat)
  | getThermistorBeta
  | setThermistorB (beta : Nat)
  | write16 (regAddress data : Nat)
  | read16 (regAddress : Nat)

/-- The state an operation leaves behind; `none` where the operation is undefined. -/
def Operation.run (tw : TwoWire) (hdr : Header) : Operation → State → Option State
  | .begin, s => some (LC709203F.begin tw hdr s).2
  | .getICversion, s => some (LC709203F.getICversion tw hdr s).2
  | .initRSOC, s => some (LC709203F.initRSOC tw hdr s)
  | .cellVoltage_mV, s => some (LC709203F.cellVoltage_mV tw hdr s).2
  | .cellRemainingPercent10, s => some (LC709203F.cellRemainingPercent10 tw hdr s).2
  | .cellStateOfCharge, s => some (LC709203F.cellStateOfCharge tw hdr s).2
  | .getCellTemperature, s => some (LC709203F.getCellTemperature tw hdr s).2
  | .setTemperatureMode t, s => some (LC709203F.setTemperatureMode tw hdr t s)
  | .setCellCapacity apa, s => some (LC709203F.setCellCapacity tw hdr apa s)
  | .setAlarmRSOC percent, s => some (LC709203F.setAlarmRSOC tw hdr percent s)
  | .setAlarmVoltage voltage, s => LC709203F.setAlarmVoltage tw hdr voltage s
  | .setPowerMode t, s => some (LC709203F.setPowerMode tw hdr t s)
  | .setCellProfile t, s => some (LC709203F.setCellProfile tw hdr t s)
  | .getThermistorBeta, s => some (LC709203F.getThermistorBeta tw hdr s).2
  | .setThermistorB beta, s => some (LC709203F.setThermistorB tw hdr beta s)
  | .write16 regAddress data, s => some (LC709203F.write16 tw regAddress data s)
  | .read16 regAddress, s => some (LC709203F.read16 tw regAddress s).2

/-- A deterministic transport stub: a register read of register `r` is answered with the
two bytes `dev r`, whatever happened before; every other call returns `0`. -/
def registerStub (dev : Nat → Int × Int) : TwoWire := fun history =>
  match history.reverse with
  | .read :: .read :: .requestFrom _ _ :: .endTransmission _ :: .write r :: _ => (dev r).2
  | .read :: .requestFrom _ _ :: .endTransmission _ :: .write r :: _ => (dev r).1
  | _ => 0

/-- The transport answers every register read, in every state, with the two bytes that
`dev` gives for the register: the same request gets the same two bytes. -/
def AnswersByRegister (tw : TwoWire) (dev : Nat → Int × Int) : Prop :=
  ∀ (s : State) (regAddress : Nat),
    Delivers tw s regAddress (dev (regAddress % 256)).1 (dev (regAddress % 256)).2

/-- Two byte sequences of the same length that differ in exactly one bit: bit `j` of
the byte at one position. -/
def DifferInOneBit (a b : List Nat) : Prop :=
  ∃ (pre post : List Nat) (d j : Nat),
    j < 8 ∧ a = pre ++ d :: post ∧ b = pre ++ (d ^^^ 2 ^ j) :: post

/-! ## The standard CRC-8, as a polynomial remainder -/

section Standard
open Polynomial

/-- Specification side: the polynomial over GF(2) whose coefficient of `x^i` is bit `i` of
`n`. -/
noncomputable def bitsPoly (n : Nat) : (ZMod 2)[X] :=
  Finset.sum (Finset.range n) (fun i => if n.testBit i then X ^ i else 0)

/-- Specification side: the generator polynomial `x^8 + x^2 + x + 1` (polynomial `0x07`). -/
noncomputable def crcPoly : (ZMod 2)[X] := X ^ 8 + X ^ 2 + X + 1

/-- Specification side: the message polynomial of a byte sequence, without reflection:
the first byte has the highest degree, and within a byte the most significant bit has. -/
noncomputable def messagePoly (data : List Nat) : (ZMod 2)[X] :=
  data.foldl (fun p b => p * X ^ 8 + bitsPoly b) 0

/-- Specification side: the standard CRC-8 with polynomial `0x07`, initial value `0x00`, no
reflection and no final XOR: the remainder of the message polynomial times `x^8` modulo
the generator polynomial. -/
noncomputable def standardCrc8 (data : List Nat) : (ZMod 2)[X] :=
  (messagePoly data * X ^ 8) %ₘ crcPoly

end Standard

/-! ## Sample inputs -/

/-- A sample header, with the register map of the LC709203F data sheet. -/
def sampleHeader : Header :=
  { LC709203F_I2C_ADDR := 0x0B
    LC709203F_RO_ICVERSION := 0x11
    LC709203F_WO_INITRSOC := 0x07
    LC709203F_RO_CELLVOLTAGE := 0x09
    LC709203F_RO_ITE := 0x0F
    LC709203F_RW_RSOC := 0x0D
    LC709203F_RW_CELLTEMPERATURE := 0x08
    LC709203F_RW_STATUSBIT := 0x16
    LC709203F_RW_APA := 0x0B
    LC709203F_RW_ALARMRSOC := 0x13
    LC709203F_RW_ALARMVOLT := 0x14
    LC709203F_RW_POWERMODE := 0x15
    LC709203F_RW_PROFILE := 0x12
    LC709203F_RW_THERMISTORB := 0x06
    LC709203F_POWER_OPERATE := 0x0001
    LC709203F_APA_500MAH := 0x0010
    LC709203F_TEMPERATURE_THERMISTOR := 0x0001 }

/-- A sample transport for a driver that has made no call yet: it answers the first `read`
of a register read with `b0`, the second with `b1`, and every other call with `0`. -/
def sampleWire (b0 b1 : Int) : TwoWire := fun history =>
  if history.length = 5 then b0 else if history.length = 6 then b1 else 0

/-- The `float` argument of the call `setAlarmVoltage(3.7)`: the `double` nearest to 3.7,
converted to `float`. -/
def sampleVoltage : Fp := Fp.convert binary32 (Fp.ofRatio binary64 37 10)

/-! ## Bytes and words -/

theorem lowByte_eq (w : Nat) : lowByte w = w % 256 := by
  unfold lowByte
  have h := Nat.and_pow_two_sub_one_eq_mod w 8
  norm_num at h
  rw [h, Nat.mod_mod]

theorem highByte_eq (w : Nat) (hw : w < 65536) : highByte w = w / 256 := by
  unfold highByte
  rw [Nat.shiftRight_eq_div_pow]
  norm_num
  omega

theorem word_eq (h l : Nat) (hh : h < 256) (hl : l < 256) : word h l = h * 256 + l := by
  unfold word
  have e := Nat.mul_add_lt_is_or (i := 8) (b := l) (by norm_num; exact hl) h
  rw [Nat.shiftLeft_eq]
  norm_num at e ⊢
  rw [Nat.mul_comm h 256, ← e]
  omega

theorem word_bytes (w : Nat) (hw : w < 65536) : word (highByte w) (lowByte w) = w := by
  rw [lowByte_eq, highByte_eq w hw, word_eq _ _ (by omega) (by omega)]
  omega

/-! ## The write transaction -/

theorem write16_wire (tw : TwoWire) (regAddress data : Nat) (s : State) :
    (write16 tw regAddress data s).wire = s.wire ++
      [.beginTransmission s.i2c_address, .write (regAddress % 256),
       .write (lowByte (data % 65536)), .write (highByte (data % 65536)),
       .write (crc8 [0x16, regAddress % 256, lowByte (data % 65536), highByte (data % 65536)]),
       .endTransmission true] := by
  simp [write16, wireCall]

theorem write16_i2c_address (tw : TwoWire) (regAddress data : Nat) (s : State) :
    (write16 tw regAddress data s).i2c_address = s.i2c_address := by
  simp [write16, wireCall]

theorem issued_append (s t : State) (cs : List WireCall) (h : t.wire = s.wire ++ cs) :
    issued s t = cs := by
  simp [issued, h]

/-- C1: for an 8-bit register address `r` and a 16-bit word `w`, `write16` sends exactly
four data bytes, and the fourth and last of them is `crc8` over exactly the four bytes
`[0x16, r, w mod 256, w div 256]`. -/
theorem write16_checksum (tw : TwoWire) (r w : Nat) (s : State)
    (hr : r < 256) (hw : w < 65536) :
    (dataBytes (issued s (write16 tw r w s))).length = 4 ∧
    (dataBytes (issued s (write16 tw r w s))).get? 3 =
      some (crc8 [0x16, r, w % 256, w / 256]) ∧
    (dataBytes (issued s (write16 tw r w s))).getLast? =
      some (crc8 [0x16, r, w % 256, w / 256]) := by
  rw [issued_append s _ _ (write16_wire tw r w s)]
  rw [Nat.mod_eq_of_lt hr, Nat.mod_eq_of_lt hw, lowByte_eq, highByte_eq w hw]
  simp [dataBytes]

theorem write16_checksum_witness :
    (0x15 : Nat) < 256 ∧ (0xAA55 : Nat) < 65536 ∧
    (dataBytes (issued ⟨0x0B, []⟩ (write16 (fun _ => 0) 0x15 0xAA55 ⟨0x0B, []⟩))).length = 4 ∧
    (dataBytes (issued ⟨0x0B, []⟩ (write16 (fun _ => 0) 0x15 0xAA55 ⟨0x0B, []⟩))).get? 3 =
      some (crc8 [0x16, 0x15, 0xAA55 % 256, 0xAA55 / 256]) ∧
    (dataBytes (issued ⟨0x0B, []⟩ (write16 (fun _ => 0) 0x15 0xAA55 ⟨0x0B, []⟩))).getLast? =
      some (crc8 [0x16, 0x15, 0xAA55 % 256, 0xAA55 / 256]) :=
  ⟨by decide, by decide,
    write16_checksum (fun _ => 0) 0x15 0xAA55 ⟨0x0B, []⟩ (by decide) (by decide)⟩

/-- C3: for an 8-bit register address `r` and a 16-bit word `w`, `write16` makes exactly
one transmission, to the address held in `i2c_address`, with exactly the four data bytes
`r`, low byte of `w`, high byte of `w`, checksum, in this order, so the leading `0x16` of
the checksum input is not written; the function is total: nothing is rejected. -/
theorem write16_transaction (tw : TwoWire) (r w : Nat) (s : State)
    (hr : r < 256) (hw : w < 65536) :
    (write16 tw r w s).wire = s.wire ++
      [.beginTransmission s.i2c_address, .write r, .write (w % 256), .write (w / 256),
       .write (crc8 [0x16, r, w % 256, w / 256]), .endTransmission true] ∧
    dataBytes (issued s (write16 tw r w s)) =
      [r, w % 256, w / 256, crc8 [0x16, r, w % 256, w / 256]] ∧
    (write16 tw r w s).i2c_address = s.i2c_address := by
  have hwire : (write16 tw r w s).wire = s.wire ++
      [.beginTransmission s.i2c_address, .write r, .write (w % 256), .write (w / 256),
       .write (crc8 [0x16, r, w % 256, w / 256]), .endTransmission true] := by
    rw [write16_wire, Nat.mod_eq_of_lt hr, Nat.mod_eq_of_lt hw, lowByte_eq, highByte_eq w hw]
  refine ⟨hwire, ?_, write16_i2c_address tw r w s⟩
  rw [issued_append s _ _ hwire]
  simp [dataBytes]

theorem write16_transaction_witness :
    (0x0B : Nat) < 256 ∧ (0x0010 : Nat) < 65536 ∧
    (write16 (fun _ => 0) 0x0B 0x0010 ⟨0x0B, [.begin]⟩).wire = [WireCall.begin] ++
      [.beginTransmission 0x0B, .write 0x0B, .write (0x0010 % 256), .write (0x0010 / 256),
       .write (crc8 [0x16, 0x0B, 0x0010 % 256, 0x0010 / 256]), .endTransmission true] ∧
    dataBytes (issued ⟨0x0B, [.begin]⟩ (write16 (fun _ => 0) 0x0B 0x0010 ⟨0x0B, [.begin]⟩)) =
      [0x0B, 0x0010 % 256, 0x0010 / 256, crc8 [0x16, 0x0B, 0x0010 % 256, 0x0010 / 256]] ∧
    (write16 (fun _ => 0) 0x0B 0x0010 ⟨0x0B, [.begin]⟩).i2c_address = 0x0B :=
  ⟨by decide, by decide,
    write16_transaction (fun _ => 0) 0x0B 0x0010 ⟨0x0B, [.begin]⟩ (by decide) (by decide)⟩

/-! ## The read transaction -/

theorem read16_value (tw : TwoWire) (regAddress : Nat) (s : State) (b0 b1 : Int)
    (hd : Delivers tw s regAddress b0 b1) :
    (read16 tw regAddress s).1 = toInt16 (word (toUInt8 b1) (toUInt8 b0)) := by
  obtain ⟨h0, h1⟩ := hd
  simp only [read16, wireCall, List.append_assoc, List.singleton_append, List.cons_append,
    List.nil_append]
  rw [h0, h1]

theorem read16_word (tw : TwoWire) (regAddress V : Nat) (s : State) (hV : V < 65536)
    (hd : Delivers tw s regAddress ((V % 256 : Nat) : Int) ((V / 256 : Nat) : Int)) :
    (read16 tw regAddress s).1 = toInt16 V := by
  rw [read16_value tw regAddress s _ _ hd]
  have h0 : toUInt8 ((V % 256 : Nat) : Int) = V % 256 := by unfold toUInt8; omega
  have h1 : toUInt8 ((V / 256 : Nat) : Int) = V / 256 := by unfold toUInt8; omega
  rw [h0, h1, word_eq _ _ (by omega) (by omega)]
  congr 1
  omega

theorem toUInt16_toInt16 (V : Nat) (hV : V < 65536) : toUInt16 (toInt16 V) = V := by
  unfold toUInt16 toInt16
  split <;> omega

theorem sampleWire_delivers (regAddress : Nat) (a : Nat) (b0 b1 : Int) :
    Delivers (sampleWire b0 b1) ⟨a, []⟩ regAddress b0 b1 := by
  simp [Delivers, sampleWire]

/-- C4: when the transport delivers the low byte of a 16-bit value `V` first and its high
byte second, each raw getter (`getICversion`, `cellRemainingPercent10`,
`cellStateOfCharge`, `getCellTemperature`, `getThermistorBeta`) returns `V`, which is
`(highByte << 8) | lowByte`; the `int16_t` result of `read16` is `V` below `0x8000` and
`V - 65536`, a negative number, from `0x8000` on, and converts back to `V`. -/
theorem read16_roundtrip (tw : TwoWire) (hdr : Header) (s : State) (V : Nat)
    (hV : V < 65536)
    (hd : ∀ regAddress, Delivers tw s regAddress ((V % 256 : Nat) : Int) ((V / 256 : Nat) : Int)) :
    (getICversion tw hdr s).1 = V ∧
    (cellRemainingPercent10 tw hdr s).1 = V ∧
    (cellStateOfCharge tw hdr s).1 = V ∧
    (getCellTemperature tw hdr s).1 = V ∧
    (getThermistorBeta tw hdr s).1 = V ∧
    word (V / 256) (V % 256) = V ∧
    (∀ regAddress, toUInt16 (read16 tw regAddress s).1 = V ∧
      (read16 tw regAddress s).1 = (if V < 0x8000 then (V : Int) else (V : Int) - 65536) ∧
      (0x8000 ≤ V → (read16 tw regAddress s).1 < 0)) := by
  have key : ∀ regAddress, toUInt16 (read16 tw regAddress s).1 = V := fun regAddress => by
    rw [read16_word tw regAddress V s hV (hd regAddress)]
    exact toUInt16_toInt16 V hV
  refine ⟨?_, ?_, ?_, ?_, ?_, ?_, fun regAddress => ⟨key regAddress, ?_, ?_⟩⟩
  · simp only [getICversion]; exact key _
  · simp only [cellRemainingPercent10]; exact key _
  · simp only [cellStateOfCharge]; exact key _
  · simp only [getCellTemperature]; exact key _
  · simp only [getThermistorBeta]; exact key _
  · rw [word_eq _ _ (by omega) (by omega)]
    omega
  · rw [read16_word tw regAddress V s hV (hd regAddress)]
    unfold toInt16
    split_ifs <;> omega
  · intro h
    rw [read16_word tw regAddress V s hV (hd regAddress)]
    unfold toInt16
    split_ifs <;> omega

theorem read16_roundtrip_witness :
    (0xABCD : Nat) < 65536 ∧
    (getICversion (sampleWire 0xCD 0xAB) sampleHeader ⟨0x0B, []⟩).1 = 0xABCD ∧
    (read16 (sampleWire 0xCD 0xAB) 0x11 ⟨0x0B, []⟩).1 < 0 :=
  have h := read16_roundtrip (sampleWire 0xCD 0xAB) sampleHeader ⟨0x0B, []⟩ 0xABCD (by decide)
    (fun regAddress => sampleWire_delivers regAddress 0x0B _ _)
  ⟨by decide, h.1, (h.2.2.2.2.2.2 0x11).2.2 (by decide)⟩

/-! ## Accessors that write -/

theorem write16_frame (tw : TwoWire) (regAddress data : Nat) (s : State) :
    (write16 tw regAddress data s).wire =
      s.wire ++ writeFrame s.i2c_address (regAddress % 256) (data % 65536) := by
  rw [write16_wire, lowByte_eq, highByte_eq _ (Nat.mod_lt _ (by norm_num))]
  rfl

theorem write16_mod_data (tw : TwoWire) (regAddress data : Nat) (s : State) :
    write16 tw regAddress (data % 65536) s = write16 tw regAddress data s := by
  simp only [write16, Nat.mod_mod]

/-- C6: for an enumerated value `t` (a 16-bit integer), `setPowerMode t` is exactly one
`write16` to the power-mode register with word `t`, and `setCellCapacity t` exactly one
`write16` to the APA register with word `t`; the low and high data bytes put on the wire
decode back to `t`. -/
theorem setPowerMode_setCellCapacity_verbatim (tw : TwoWire) (hdr : Header) (s : State)
    (t : Nat) (ht : t < 65536) :
    setPowerMode tw hdr t s = write16 tw hdr.LC709203F_RW_POWERMODE t s ∧
    (setPowerMode tw hdr t s).wire = s.wire ++
      [.beginTransmission s.i2c_address, .write (hdr.LC709203F_RW_POWERMODE % 256),
       .write (t % 256), .write (t / 256),
       .write (crc8 [0x16, hdr.LC709203F_RW_POWERMODE % 256, t % 256, t / 256]),
       .endTransmission true] ∧
    setCellCapacity tw hdr t s = write16 tw hdr.LC709203F_RW_APA t s ∧
    (setCellCapacity tw hdr t s).wire = s.wire ++
      [.beginTransmission s.i2c_address, .write (hdr.LC709203F_RW_APA % 256),
       .write (t % 256), .write (t / 256),
       .write (crc8 [0x16, hdr.LC709203F_RW_APA % 256, t % 256, t / 256]),
       .endTransmission true] ∧
    word (t / 256) (t % 256) = t := by
  refine ⟨?_, ?_, ?_, ?_, ?_⟩
  · simp only [setPowerMode, Nat.mod_eq_of_lt ht]
  · simp only [setPowerMode, write16_frame, Nat.mod_mod, Nat.mod_eq_of_lt ht, writeFrame]
  · simp only [setCellCapacity, Nat.mod_eq_of_lt ht]
  · simp only [setCellCapacity, write16_frame, Nat.mod_mod, Nat.mod_eq_of_lt ht, writeFrame]
  · rw [word_eq _ _ (by omega) (by omega)]
    omega

theorem setPowerMode_setCellCapacity_verbatim_witness :
    (0x0002 : Nat) < 65536 ∧
    (setPowerMode (fun _ => 0) sampleHeader 0x0002 ⟨0x0B, []⟩).wire = [] ++
      [.beginTransmission 0x0B, .write (sampleHeader.LC709203F_RW_POWERMODE % 256),
       .write (0x0002 % 256), .write (0x0002 / 256),
       .write (crc8 [0x16, sampleHeader.LC709203F_RW_POWERMODE % 256, 0x0002 % 256,
         0x0002 / 256]),
       .endTransmission true] ∧
    word (0x0002 / 256) (0x0002 % 256) = 0x0002 :=
  have h := setPowerMode_setCellCapacity_verbatim (fun _ => 0) sampleHeader ⟨0x0B, []⟩ 0x0002
    (by decide)
  ⟨by decide, h.2.1, h.2.2.2.2⟩

/-- C7: `begin` calls `Wire.begin` and then issues exactly three register writes and no
read, in this order: `LC709203F_POWER_OPERATE` to the power-mode register,
`LC709203F_APA_500MAH` to the APA register, `LC709203F_TEMPERATURE_THERMISTOR` to the
status-bit register. -/
theorem begin_sequence (tw : TwoWire) (hdr : Header) (s : State) :
    (begin tw hdr s).2.wire = s.wire ++ [WireCall.begin] ++
      writeFrame s.i2c_address (hdr.LC709203F_RW_POWERMODE % 256)
        (hdr.LC709203F_POWER_OPERATE % 65536) ++
      writeFrame s.i2c_address (hdr.LC709203F_RW_APA % 256)
        (hdr.LC709203F_APA_500MAH % 65536) ++
      writeFrame s.i2c_address (hdr.LC709203F_RW_STATUSBIT % 256)
        (hdr.LC709203F_TEMPERATURE_THERMISTOR % 65536) ∧
    (begin tw hdr s).2 =
      write16 tw hdr.LC709203F_RW_STATUSBIT hdr.LC709203F_TEMPERATURE_THERMISTOR
        (write16 tw hdr.LC709203F_RW_APA hdr.LC709203F_APA_500MAH
          (write16 tw hdr.LC709203F_RW_POWERMODE hdr.LC709203F_POWER_OPERATE
            (wireCall tw .begin s).2)) ∧
    ((issued s (begin tw hdr s).2).filter WireCall.isBeginTransmission).length = 3 ∧
    (issued s (begin tw hdr s).2).filter WireCall.isRead = [] := by
  have hwire : (begin tw hdr s).2.wire = s.wire ++ ([WireCall.begin] ++
      writeFrame s.i2c_address (hdr.LC709203F_RW_POWERMODE % 256)
        (hdr.LC709203F_POWER_OPERATE % 65536) ++
      writeFrame s.i2c_address (hdr.LC709203F_RW_APA % 256)
        (hdr.LC709203F_APA_500MAH % 65536) ++
      writeFrame s.i2c_address (hdr.LC709203F_RW_STATUSBIT % 256)
        (hdr.LC709203F_TEMPERATURE_THERMISTOR % 65536)) := by
    simp only [begin, setPowerMode, setCellCapacity, setTemperatureMode, write16_frame,
      write16_i2c_address, Nat.mod_mod, wireCall, List.append_assoc]
  refine ⟨?_, ?_, ?_, ?_⟩
  · rw [hwire]
    simp only [List.append_assoc]
  · simp only [begin, setPowerMode, setCellCapacity, setTemperatureMode, write16_mod_data]
  · rw [issued_append s _ _ hwire]
    simp [writeFrame, WireCall.isBeginTransmission]
  · rw [issued_append s _ _ hwire]
    simp [writeFrame, WireCall.isRead]

/-- C8: `begin` reports success whatever the transport does: for every behaviour of the
transport, in particular whatever its `write` and `endTransmission` calls return, the
result is `true`. -/
theorem begin_returns_true (tw : TwoWire) (hdr : Header) (s : State) :
    (begin tw hdr s).1 = true := by
  simp [begin]

/-- C10: `initRSOC` makes exactly one write transaction, to the RSOC-initialisation
register, with the word `0xAA55`: after the register address the data bytes are `0x55`,
then `0xAA`, then the checksum. -/
theorem initRSOC_sentinel (tw : TwoWire) (hdr : Header) (s : State) :
    (initRSOC tw hdr s).wire = s.wire ++
      [.beginTransmission s.i2c_address, .write (hdr.LC709203F_WO_INITRSOC % 256),
       .write 0x55, .write 0xAA,
       .write (crc8 [0x16, hdr.LC709203F_WO_INITRSOC % 256, 0x55, 0xAA]),
       .endTransmission true] ∧
    initRSOC tw hdr s = write16 tw hdr.LC709203F_WO_INITRSOC 0xAA55 s ∧
    dataBytes (issued s (initRSOC tw hdr s)) =
      [hdr.LC709203F_WO_INITRSOC % 256, 0x55, 0xAA,
       crc8 [0x16, hdr.LC709203F_WO_INITRSOC % 256, 0x55, 0xAA]] := by
  have hwire : (initRSOC tw hdr s).wire = s.wire ++
      [.beginTransmission s.i2c_address, .write (hdr.LC709203F_WO_INITRSOC % 256),
       .write 0x55, .write 0xAA,
       .write (crc8 [0x16, hdr.LC709203F_WO_INITRSOC % 256, 0x55, 0xAA]),
       .endTransmission true] := by
    simp only [initRSOC, write16_frame, writeFrame]
  refine ⟨hwire, rfl, ?_⟩
  rw [issued_append s _ _ hwire]
  simp [dataBytes]


/-! ## CRC-8 is the standard CRC-8 -/

section Standard
open Polynomial

theorem coeff_bitsPoly (n i : Nat) : (bitsPoly n).coeff i = if n.testBit i then 1 else 0 := by
  unfold bitsPoly
  rw [Polynomial.finset_sum_coeff]
  by_cases h : n.testBit i = true
  · have hi : i < n := lt_of_lt_of_le (Nat.lt_two_pow i) (Nat.testBit_implies_ge h)
    rw [Finset.sum_eq_single i]
    · simp [h]
    · intro j _ hji
      split_ifs
      · simp [Polynomial.coeff_X_pow, hji.symm]
      · simp
    · intro hni
      simp at hni
      omega
  · simp only [h]
    apply Finset.sum_eq_zero
    intro j _
    split_ifs with hj
    · have : i ≠ j := fun e => h (e ▸ hj)
      simp [Polynomial.coeff_X_pow, this]
    · simp

theorem bitsPoly_xor (a b : Nat) : bitsPoly (a ^^^ b) = bitsPoly a + bitsPoly b := by
  ext i
  rw [Polynomial.coeff_add, coeff_bitsPoly, coeff_bitsPoly, coeff_bitsPoly, Nat.testBit_xor]
  cases a.testBit i <;> cases b.testBit i <;> decide

theorem bitsPoly_two_mul (a : Nat) : bitsPoly (2 * a) = X * bitsPoly a := by
  ext i
  cases i with
  | zero => simp [coeff_bitsPoly]
  | succ i =>
    rw [Polynomial.coeff_X_mul, coeff_bitsPoly, coeff_bitsPoly, Nat.testBit_succ]
    simp

theorem degree_bitsPoly_lt (n k : Nat) (h : n < 2 ^ k) : (bitsPoly n).degree < k := by
  rw [Polynomial.degree_lt_iff_coeff_zero]
  intro m hm
  rw [coeff_bitsPoly, Nat.testBit_lt_two_pow (lt_of_lt_of_le h (Nat.pow_le_pow_right (by norm_num) hm))]
  simp

theorem crcPoly_monic : crcPoly.Monic := by
  unfold crcPoly
  monicity!

theorem crcPoly_degree : crcPoly.degree = 8 := by
  unfold crcPoly
  compute_degree!

theorem bitsPoly_zero : bitsPoly 0 = 0 := by
  ext i
  simp [coeff_bitsPoly]

theorem bitsPoly_two_mul_add_one (a : Nat) : bitsPoly (2 * a + 1) = X * bitsPoly a + 1 := by
  ext i
  cases i with
  | zero => simp [coeff_bitsPoly, Nat.add_mod]
  | succ i =>
    rw [Polynomial.coeff_add, Polynomial.coeff_X_mul, coeff_bitsPoly, coeff_bitsPoly,
      Nat.testBit_succ]
    have : (2 * a + 1) / 2 = a := by omega
    simp [this, Polynomial.coeff_one]

theorem bitsPoly_263 : bitsPoly 263 = crcPoly := by
  have e : (263 : Nat) =
      2 * (2 * (2 * (2 * (2 * (2 * (2 * (2 * (2 * 0 + 1)))))) + 1) + 1) + 1 := by
    norm_num
  rw [e]
  simp only [bitsPoly_two_mul_add_one, bitsPoly_two_mul, bitsPoly_zero]
  unfold crcPoly
  ring

theorem crc8Shift_eq (c : Nat) (hc : c < 256) :
    crc8Shift c = if c < 128 then 2 * c else (2 * c) ^^^ 263 := by
  interval_cases c <;> rfl

theorem crc8Shift_lt (c : Nat) : crc8Shift c < 256 := by
  unfold crc8Shift
  split <;> exact Nat.mod_lt _ (by norm_num)

theorem crcPoly_dvd_shift (c : Nat) (hc : c < 256) :
    crcPoly ∣ X * bitsPoly c - bitsPoly (crc8Shift c) := by
  rw [crc8Shift_eq c hc]
  split
  · rw [bitsPoly_two_mul, sub_self]
    exact dvd_zero _
  · rw [bitsPoly_xor, bitsPoly_two_mul, bitsPoly_263]
    have : X * bitsPoly c - (X * bitsPoly c + crcPoly) = crcPoly * (-1) := by ring
    rw [this]
    exact dvd_mul_right _ _

theorem crc8Bits_lt (k c : Nat) (hc : c < 256) : crc8Bits k c < 256 := by
  induction k generalizing c with
  | zero => exact hc
  | succ k ih => exact ih _ (crc8Shift_lt c)

theorem crcPoly_dvd_bits (k c : Nat) (hc : c < 256) :
    crcPoly ∣ X ^ k * bitsPoly c - bitsPoly (crc8Bits k c) := by
  induction k generalizing c with
  | zero => simp [crc8Bits]
  | succ k ih =>
    have h1 := ih (crc8Shift c) (crc8Shift_lt c)
    have h2 := dvd_mul_of_dvd_right (crcPoly_dvd_shift c hc) (X ^ k)
    have h3 := dvd_add h1 h2
    have e : X ^ k * bitsPoly (crc8Shift c) - bitsPoly (crc8Bits k (crc8Shift c)) +
        X ^ k * (X * bitsPoly c - bitsPoly (crc8Shift c)) =
        X ^ (k + 1) * bitsPoly c - bitsPoly (crc8Bits (k + 1) c) := by
      simp only [crc8Bits]
      ring
    rwa [e] at h3

theorem crc8Loop_lt (data : List Nat) (crc : Nat) (hc : crc < 256) : crc8Loop data crc < 256 := by
  induction data generalizing crc with
  | nil => exact hc
  | cons d rest ih => exact ih _ (crc8Bits_lt 8 _ (Nat.mod_lt _ (by norm_num)))

theorem crcPoly_dvd_loop (data : List Nat) (hdata : ∀ b ∈ data, b < 256) (crc : Nat)
    (hc : crc < 256) (p : (ZMod 2)[X]) (hp : crcPoly ∣ p * X ^ 8 - bitsPoly crc) :
    crcPoly ∣ data.foldl (fun p b => p * X ^ 8 + bitsPoly b) p * X ^ 8 -
      bitsPoly (crc8Loop data crc) := by
  induction data generalizing crc p with
  | nil => exact hp
  | cons d rest ih =>
    have hd : d < 256 := hdata d (List.mem_cons_self _ _)
    have hx : crc ^^^ d < 256 := Nat.xor_lt_two_pow (n := 8) hc hd
    simp only [List.foldl_cons, crc8Loop]
    apply ih (fun b hb => hdata b (List.mem_cons_of_mem _ hb)) _ (crc8Bits_lt 8 _ (Nat.mod_lt _ (by norm_num)))
    rw [Nat.mod_eq_of_lt hx]
    have h1 := crcPoly_dvd_bits 8 (crc ^^^ d) hx
    have h2 := dvd_mul_of_dvd_right hp (X ^ 8)
    have h3 := dvd_add h1 h2
    have e : X ^ 8 * bitsPoly (crc ^^^ d) - bitsPoly (crc8Bits 8 (crc ^^^ d)) +
        X ^ 8 * (p * X ^ 8 - bitsPoly crc) =
        (p * X ^ 8 + bitsPoly d) * X ^ 8 - bitsPoly (crc8Bits 8 (crc ^^^ d)) := by
      rw [bitsPoly_xor]
      ring
    rwa [e] at h3

theorem bitsPoly_injective (a b : Nat) (h : bitsPoly a = bitsPoly b) : a = b := by
  apply Nat.eq_of_testBit_eq
  intro i
  have := congrArg (fun p => p.coeff i) h
  simp only [coeff_bitsPoly] at this
  cases ha : a.testBit i <;> cases hb : b.testBit i <;> simp [ha, hb] at this ⊢

theorem crc8_lt (data : List Nat) : crc8 data < 256 :=
  crc8Loop_lt data 0 (by norm_num)

theorem crc8_poly (data : List Nat) (hdata : ∀ b ∈ data, b < 256) :
    bitsPoly (crc8 data) = standardCrc8 data := by
  have hdvd := crcPoly_dvd_loop data hdata 0 (by norm_num) 0 (by simp [bitsPoly_zero])
  have hlt : (bitsPoly (crc8 data)).degree < crcPoly.degree := by
    rw [crcPoly_degree]
    exact degree_bitsPoly_lt _ 8 (crc8_lt data)
  have h := Polynomial.modByMonic_eq_of_dvd_sub crcPoly_monic hdvd
  have h2 := (Polynomial.modByMonic_eq_self_iff crcPoly_monic).2 hlt
  unfold standardCrc8 messagePoly
  rw [h]
  exact h2.symm

/-- C2: for every byte sequence, of any length, `crc8` is the standard CRC-8 with
polynomial `0x07`, initial value `0x00`, no reflection and no final XOR: the bits of the
result are the coefficients of the remainder of the message polynomial times `x^8` modulo
`x^8 + x^2 + x + 1` over GF(2), and no other number has this property; the result is a
byte, it is `0x00` for the empty sequence, and for the frame `{0x16, 0x00, 0x00, 0x00}`
it is `0x13`, the value of the reference. -/
theorem crc8_standard (data : List Nat) (hdata : ∀ b ∈ data, b < 256) :
    bitsPoly (crc8 data) = standardCrc8 data ∧
    (∀ c, bitsPoly c = standardCrc8 data → c = crc8 data) ∧
    crc8 data < 256 ∧
    crc8 [] = 0x00 ∧
    crc8 [0x16, 0x00, 0x00, 0x00] = 0x13 ∧
    bitsPoly 0x13 = standardCrc8 [0x16, 0x00, 0x00, 0x00] := by
  have e : crc8 [0x16, 0x00, 0x00, 0x00] = 0x13 := by
    set_option maxRecDepth 10000 in decide
  refine ⟨crc8_poly data hdata, fun c hc => ?_, crc8_lt data, rfl, e, ?_⟩
  · exact bitsPoly_injective c _ (hc.trans (crc8_poly data hdata).symm)
  · have h := crc8_poly [0x16, 0x00, 0x00, 0x00] (by decide)
    rwa [e] at h

theorem crc8_standard_witness :
    (∀ b ∈ [0x16, 0x14, 0x74, 0x0E], b < 256) ∧
    bitsPoly (crc8 [0x16, 0x14, 0x74, 0x0E]) = standardCrc8 [0x16, 0x14, 0x74, 0x0E] ∧
    crc8 [0x16, 0x14, 0x74, 0x0E] < 256 :=
  have h := crc8_standard [0x16, 0x14, 0x74, 0x0E] (by decide)
  ⟨by decide, h.1, h.2.2.1⟩

end Standard

/-! ## Rounding is to nearest, ties to even -/

theorem log2Fuel_spec (fuel n : Nat) (h : n ≤ fuel) (hn : 0 < n) :
    2 ^ log2Fuel fuel n ≤ n ∧ n < 2 ^ (log2Fuel fuel n + 1) := by
  induction fuel generalizing n with
  | zero => omega
  | succ fuel ih =>
    unfold log2Fuel
    split_ifs with h2
    · have : n = 1 := by omega
      subst this
      norm_num
    · obtain ⟨l1, l2⟩ := ih (n / 2) (by omega) (by omega)
      rw [pow_succ] at l2 ⊢
      rw [pow_succ (n := log2Fuel fuel (n / 2) + 1), pow_succ]
      constructor <;> omega

theorem two_zpow_toNat (sh : Int) :
    ((2 : ℚ) ^ sh.toNat) / (2 : ℚ) ^ (-sh).toNat = (2 : ℚ) ^ sh := by
  rcases le_total 0 sh with h | h
  · have h1 : (-sh).toNat = 0 := by omega
    have h2 : ((sh.toNat : Nat) : Int) = sh := Int.toNat_of_nonneg h
    rw [h1, pow_zero, div_one, ← zpow_natCast, h2]
  · have h1 : sh.toNat = 0 := by omega
    have h2 : (((-sh).toNat : Nat) : Int) = -sh := Int.toNat_of_nonneg (by omega)
    rw [h1, pow_zero, one_div, ← zpow_natCast, h2, zpow_neg, inv_inv]

theorem shift_ratio (N D : Nat) (sh : Int) (hD : 0 < D) :
    ((N <<< sh.toNat : Nat) : ℚ) / ((D <<< (-sh).toNat : Nat) : ℚ) =
      (N : ℚ) / (D : ℚ) * (2 : ℚ) ^ sh := by
  rw [Nat.shiftLeft_eq, Nat.shiftLeft_eq, ← two_zpow_toNat sh]
  push_cast
  have hD' : (D : ℚ) ≠ 0 := by exact_mod_cast hD.ne'
  have h2 : ((2 : ℚ) ^ (-sh).toNat) ≠ 0 := pow_ne_zero _ (by norm_num)
  field_simp

theorem floorLog2Ratio_spec (N D : Nat) (hN : 0 < N) (hD : 0 < D) :
    (2 : ℚ) ^ floorLog2Ratio N D ≤ (N : ℚ) / D ∧
    (N : ℚ) / D < (2 : ℚ) ^ (floorLog2Ratio N D + 1) := by
  obtain ⟨n1, n2⟩ := log2Fuel_spec N N le_rfl hN
  obtain ⟨d1, d2⟩ := log2Fuel_spec D D le_rfl hD
  have hDq : (0 : ℚ) < (D : ℚ) := by exact_mod_cast hD
  have hNq : (0 : ℚ) < (N : ℚ) := by exact_mod_cast hN
  have n1q : (2 : ℚ) ^ (log2Fuel N N : Int) ≤ (N : ℚ) := by
    rw [zpow_natCast]; exact_mod_cast n1
  have n2q : (N : ℚ) < (2 : ℚ) ^ ((log2Fuel N N : Int) + 1) := by
    have : (N : ℚ) < (2 : ℚ) ^ (log2Fuel N N + 1) := by exact_mod_cast n2
    rwa [← zpow_natCast, Nat.cast_add, Nat.cast_one] at this
  have d1q : (2 : ℚ) ^ (log2Fuel D D : Int) ≤ (D : ℚ) := by
    rw [zpow_natCast]; exact_mod_cast d1
  have d2q : (D : ℚ) < (2 : ℚ) ^ ((log2Fuel D D : Int) + 1) := by
    have : (D : ℚ) < (2 : ℚ) ^ (log2Fuel D D + 1) := by exact_mod_cast d2
    rwa [← zpow_natCast, Nat.cast_add, Nat.cast_one] at this
  have two_ne : (2 : ℚ) ≠ 0 := by norm_num
  have pos : ∀ z : Int, (0 : ℚ) < (2 : ℚ) ^ z := fun z => zpow_pos (by norm_num) z
  unfold floorLog2Ratio
  simp only
  set k : Int := (log2Fuel N N : Int) - (log2Fuel D D : Int) with hk
  have hratio := shift_ratio N D (-k) hD
  rw [neg_neg] at hratio
  split_ifs with hc
  · constructor
    · -- D * 2^k ≤ N
      have hc' : ((D <<< k.toNat : Nat) : ℚ) ≤ ((N <<< (-k).toNat : Nat) : ℚ) := by
        exact_mod_cast hc
      have hpos : (0 : ℚ) < ((D <<< k.toNat : Nat) : ℚ) := by
        rw [Nat.shiftLeft_eq]; push_cast; positivity
      have : (1 : ℚ) ≤ (N : ℚ) / D * 2 ^ (-k) := by
        rw [← hratio]
        exact (one_le_div hpos).2 hc'
      rw [zpow_neg] at this
      have h3 := mul_le_mul_of_nonneg_right this (pos k).le
      rw [one_mul, mul_assoc, inv_mul_cancel₀ (pos k).ne', mul_one] at h3
      exact h3
    · rw [div_lt_iff₀ hDq]
      calc (N : ℚ) < 2 ^ ((log2Fuel N N : Int) + 1) := n2q
        _ = 2 ^ (k + 1) * 2 ^ (log2Fuel D D : Int) := by
          rw [← zpow_add₀ two_ne]; congr 1; omega
        _ ≤ 2 ^ (k + 1) * D := mul_le_mul_of_nonneg_left d1q (pos _).le
  · constructor
    · rw [le_div_iff₀ hDq]
      calc (2 : ℚ) ^ (k - 1) * D ≤ 2 ^ (k - 1) * 2 ^ ((log2Fuel D D : Int) + 1) :=
            mul_le_mul_of_nonneg_left d2q.le (pos _).le
        _ = 2 ^ (log2Fuel N N : Int) := by
          rw [← zpow_add₀ two_ne]; congr 1; omega
        _ ≤ N := n1q
    · have hc' : ((N <<< (-k).toNat : Nat) : ℚ) < ((D <<< k.toNat : Nat) : ℚ) := by
        exact_mod_cast not_le.1 hc
      have hpos : (0 : ℚ) < ((D <<< k.toNat : Nat) : ℚ) := by
        rw [Nat.shiftLeft_eq]; push_cast; positivity
      have : (N : ℚ) / D * 2 ^ (-k) < 1 := by
        rw [← hratio]
        exact (div_lt_one hpos).2 hc'
      rw [zpow_neg] at this
      have h3 := mul_lt_mul_of_pos_right this (pos k)
      rw [one_mul, mul_assoc, inv_mul_cancel₀ (pos k).ne', mul_one] at h3
      rw [sub_add_cancel]
      exact h3

theorem nearest_even_quotient (N D : Nat) (hD : 0 < D) :
    |((if D < 2 * (N % D) ∨ (2 * (N % D) = D ∧ N / D % 2 = 1) then N / D + 1 else N / D : Nat) : ℚ)
        - (N : ℚ) / D| ≤ 1 / 2 ∧
    (|((if D < 2 * (N % D) ∨ (2 * (N % D) = D ∧ N / D % 2 = 1) then N / D + 1 else N / D : Nat) : ℚ)
        - (N : ℚ) / D| = 1 / 2 →
      (if D < 2 * (N % D) ∨ (2 * (N % D) = D ∧ N / D % 2 = 1) then N / D + 1 else N / D) % 2 = 0) := by
  have hDq : (0 : ℚ) < (D : ℚ) := by exact_mod_cast hD
  have hsplit : (N : ℚ) / D = (N / D : Nat) + ((N % D : Nat) : ℚ) / D := by
    have h := Nat.div_add_mod N D
    have hq : (N : ℚ) = (D : ℚ) * (N / D : Nat) + (N % D : Nat) := by exact_mod_cast h.symm
    field_simp
    linarith
  have hr : N % D < D := Nat.mod_lt _ hD
  set q := N / D with hq
  set r := N % D with hrdef
  have hrq : ((r : Nat) : ℚ) < D := by exact_mod_cast hr
  have hr0 : (0 : ℚ) ≤ (r : ℚ) := by positivity
  by_cases h1 : D < 2 * r
  · rw [if_pos (Or.inl h1)]
    have h1q : (D : ℚ) < 2 * r := by exact_mod_cast h1
    have e : ((q + 1 : Nat) : ℚ) - (N : ℚ) / D = ((D : ℚ) - r) / D := by
      rw [hsplit]; push_cast; field_simp; ring
    have hlt : ((D : ℚ) - r) / D < 1 / 2 := by
      rw [div_lt_iff₀ hDq]; linarith
    have hpos : 0 ≤ ((D : ℚ) - r) / D := div_nonneg (by linarith) hDq.le
    rw [e, abs_of_nonneg hpos]
    exact ⟨hlt.le, fun h => absurd h hlt.ne⟩
  · by_cases h2 : 2 * r = D ∧ q % 2 = 1
    · rw [if_pos (Or.inr h2)]
      have h2q : (2 : ℚ) * r = D := by exact_mod_cast h2.1
      have e : ((q + 1 : Nat) : ℚ) - (N : ℚ) / D = 1 / 2 := by
        rw [hsplit]; push_cast; field_simp; linarith
      rw [e, abs_of_nonneg (by norm_num : (0 : ℚ) ≤ 1 / 2)]
      exact ⟨le_refl _, fun _ => by omega⟩
    · rw [if_neg (by tauto)]
      have h1q : (2 : ℚ) * r ≤ D := by exact_mod_cast not_lt.1 h1
      have e : ((q : Nat) : ℚ) - (N : ℚ) / D = -((r : ℚ) / D) := by
        rw [hsplit]; ring
      have hle : (r : ℚ) / D ≤ 1 / 2 := by
        rw [div_le_iff₀ hDq]; linarith
      have hnn : 0 ≤ (r : ℚ) / D := div_nonneg hr0 hDq.le
      rw [e, abs_neg, abs_of_nonneg hnn]
      refine ⟨hle, fun h => ?_⟩
      have h3 : (2 : ℚ) * r = D := by
        rw [div_eq_iff hDq.ne'] at h; linarith
      have h4 : 2 * r = D := by exact_mod_cast h3
      have h5 : ¬ (q % 2 = 1) := fun h => h2 ⟨h4, h⟩
      omega

/-- Correctness of rounding: for positive `N`, `D` the result is the value of the format
nearest to `(N / D) * 2^e`, ties to even: its exponent is at least `emin`, its
significand has at most `prec` bits (or is `2^prec`) and at least `prec` bits above
`emin`, it lies within half a unit in the last place of the exact value, and on a tie the
significand is even. -/
theorem roundNearestEven_spec (f : Format) (neg : Bool) (N D : Nat) (e : Int)
    (hN : 0 < N) (hD : 0 < D) (hp : 0 < f.prec) :
    (roundNearestEven f neg N D e).neg = neg ∧
    f.emin ≤ (roundNearestEven f neg N D e).e ∧
    (roundNearestEven f neg N D e).m ≤ 2 ^ f.prec ∧
    (f.emin < (roundNearestEven f neg N D e).e →
      2 ^ (f.prec - 1) ≤ (roundNearestEven f neg N D e).m) ∧
    |((roundNearestEven f neg N D e).m : ℚ) * 2 ^ (roundNearestEven f neg N D e).e
        - (N : ℚ) / D * 2 ^ e| ≤ 2 ^ (roundNearestEven f neg N D e).e / 2 ∧
    (|((roundNearestEven f neg N D e).m : ℚ) * 2 ^ (roundNearestEven f neg N D e).e
        - (N : ℚ) / D * 2 ^ e| = 2 ^ (roundNearestEven f neg N D e).e / 2 →
      (roundNearestEven f neg N D e).m % 2 = 0) := by
  have two_ne : (2 : ℚ) ≠ 0 := by norm_num
  have pos : ∀ z : Int, (0 : ℚ) < (2 : ℚ) ^ z := fun z => zpow_pos (by norm_num) z
  obtain ⟨k1, k2⟩ := floorLog2Ratio_spec N D hN hD
  unfold roundNearestEven
  rw [if_neg hN.ne']
  simp only
  set x : Int := max f.emin (e + floorLog2Ratio N D - ((f.prec : Int) - 1)) with hx
  set N' : Nat := N <<< (e - x).toNat with hN'
  set D' : Nat := D <<< (-(e - x)).toNat with hD'
  have hD'pos : 0 < D' := by
    rw [hD', Nat.shiftLeft_eq]; positivity
  have hD'q : (0 : ℚ) < (D' : ℚ) := by exact_mod_cast hD'pos
  have hρ : (N' : ℚ) / D' = (N : ℚ) / D * 2 ^ (e - x) := shift_ratio N D (e - x) hD
  have hy : (N : ℚ) / D * 2 ^ e = (N' : ℚ) / D' * 2 ^ x := by
    rw [hρ, mul_assoc, ← zpow_add₀ two_ne, sub_add_cancel]
  obtain ⟨hn1, hn2⟩ := nearest_even_quotient N' D' hD'pos
  set m : Nat := if D' < 2 * (N' % D') ∨ (2 * (N' % D') = D' ∧ N' / D' % 2 = 1)
    then N' / D' + 1 else N' / D' with hm
  have hqm : N' / D' ≤ m := by
    rw [hm]; split_ifs <;> omega
  have hmq : m ≤ N' / D' + 1 := by
    rw [hm]; split_ifs <;> omega
  have hdiff : (m : ℚ) * 2 ^ x - (N : ℚ) / D * 2 ^ e = ((m : ℚ) - (N' : ℚ) / D') * 2 ^ x := by
    rw [hy]; ring
  have habs : |(m : ℚ) * 2 ^ x - (N : ℚ) / D * 2 ^ e| = |(m : ℚ) - (N' : ℚ) / D'| * 2 ^ x := by
    rw [hdiff, abs_mul, abs_of_pos (pos x)]
  refine ⟨trivial, le_max_left _ _, ?_, ?_, ?_, ?_⟩
  · -- upper bound on the significand
    have hxge : e + floorLog2Ratio N D - ((f.prec : Int) - 1) ≤ x := le_max_right _ _
    have hρlt : (N' : ℚ) / D' < (2 : ℚ) ^ (f.prec : Int) := by
      rw [hρ]
      calc (N : ℚ) / D * 2 ^ (e - x) < 2 ^ (floorLog2Ratio N D + 1) * 2 ^ (e - x) :=
            mul_lt_mul_of_pos_right k2 (pos _)
        _ = 2 ^ (floorLog2Ratio N D + 1 + (e - x)) := (zpow_add₀ two_ne _ _).symm
        _ ≤ 2 ^ (f.prec : Int) := zpow_le_zpow_right₀ (by norm_num) (by omega)
    rw [zpow_natCast, div_lt_iff₀ hD'q] at hρlt
    have hlt : N' < 2 ^ f.prec * D' := by exact_mod_cast hρlt
    have hq : N' / D' < 2 ^ f.prec := (Nat.div_lt_iff_lt_mul hD'pos).2 hlt
    omega
  · -- normal range
    intro hnorm
    have hxeq : x = e + floorLog2Ratio N D - ((f.prec : Int) - 1) := by
      rw [hx] at hnorm ⊢
      rcases max_cases f.emin (e + floorLog2Ratio N D - ((f.prec : Int) - 1)) with ⟨h1, _⟩ | ⟨h1, _⟩
      · rw [h1] at hnorm; exact absurd hnorm (lt_irrefl _)
      · exact h1
    have hρge : (2 : ℚ) ^ ((f.prec - 1 : Nat) : Int) ≤ (N' : ℚ) / D' := by
      rw [hρ]
      calc (2 : ℚ) ^ ((f.prec - 1 : Nat) : Int)
          = 2 ^ (floorLog2Ratio N D) * 2 ^ (e - x) := by
            rw [← zpow_add₀ two_ne]; congr 1; omega
        _ ≤ (N : ℚ) / D * 2 ^ (e - x) := mul_le_mul_of_nonneg_right k1 (pos _).le
    rw [zpow_natCast, le_div_iff₀ hD'q] at hρge
    have hle : 2 ^ (f.prec - 1) * D' ≤ N' := by exact_mod_cast hρge
    have hq : 2 ^ (f.prec - 1) ≤ N' / D' := (Nat.le_div_iff_mul_le hD'pos).2 hle
    omega
  · rw [habs]
    calc |(m : ℚ) - (N' : ℚ) / D'| * 2 ^ x ≤ 1 / 2 * 2 ^ x :=
          mul_le_mul_of_nonneg_right hn1 (pos x).le
      _ = 2 ^ x / 2 := by ring
  · intro htie
    rw [habs] at htie
    apply hn2
    have h2 : |(m : ℚ) - (N' : ℚ) / D'| * 2 ^ x = 1 / 2 * 2 ^ x := by rw [htie]; ring
    exact mul_right_cancel₀ (pos x).ne' h2

theorem Fp.mul_nearest (f : Format) (a b : Fp) (ha : 0 < a.m) (hb : 0 < b.m)
    (hp : 0 < f.prec) :
    |((Fp.mul f a b).m : ℚ) * 2 ^ (Fp.mul f a b).e
        - ((a.m : ℚ) * 2 ^ a.e) * ((b.m : ℚ) * 2 ^ b.e)| ≤ 2 ^ (Fp.mul f a b).e / 2 := by
  have h := (roundNearestEven_spec f (xor a.neg b.neg) (a.m * b.m) 1 (a.e + b.e)
    (Nat.mul_pos ha hb) Nat.one_pos hp).2.2.2.2.1
  have e : ((a.m * b.m : Nat) : ℚ) / ((1 : Nat) : ℚ) * 2 ^ (a.e + b.e) =
      ((a.m : ℚ) * 2 ^ a.e) * ((b.m : ℚ) * 2 ^ b.e) := by
    rw [zpow_add₀ (by norm_num : (2 : ℚ) ≠ 0)]
    push_cast
    ring
  rw [e] at h
  exact h

theorem Fp.div_nearest (f : Format) (a b : Fp) (ha : 0 < a.m) (hb : 0 < b.m)
    (hp : 0 < f.prec) :
    |((Fp.div f a b).m : ℚ) * 2 ^ (Fp.div f a b).e
        - ((a.m : ℚ) * 2 ^ a.e) / ((b.m : ℚ) * 2 ^ b.e)| ≤ 2 ^ (Fp.div f a b).e / 2 := by
  have h := (roundNearestEven_spec f (xor a.neg b.neg) a.m b.m (a.e - b.e) ha hb hp).2.2.2.2.1
  have e : (a.m : ℚ) / (b.m : ℚ) * 2 ^ (a.e - b.e) =
      ((a.m : ℚ) * 2 ^ a.e) / ((b.m : ℚ) * 2 ^ b.e) := by
    rw [zpow_sub₀ (by norm_num : (2 : ℚ) ≠ 0)]
    have hb' : (b.m : ℚ) ≠ 0 := by exact_mod_cast hb.ne'
    have h2 : ((2 : ℚ) ^ b.e) ≠ 0 := (zpow_pos (by norm_num) _).ne'
    field_simp
  rw [e] at h
  exact h

/-! ## Floating-point accessors -/

theorem Fp.trunc_eq_floor (a : Fp) (h : a.neg = false) : (a.trunc : Int) = ⌊a.toRat⌋ := by
  obtain ⟨neg, m, e⟩ := a
  simp only at h
  subst h
  unfold Fp.trunc Fp.toRat
  cases e with
  | ofNat k =>
    simp only [Int.ofNat_eq_coe, Int.toNat_ofNat, Nat.shiftLeft_eq, zpow_natCast]
    have : (-(k : Int)).toNat = 0 := by omega
    rw [this, Nat.shiftRight_zero]
    have e2 : ((if false = true then (-1 : ℚ) else 1) * (m : ℚ) * 2 ^ k) = ((m * 2 ^ k : Nat) : ℚ) := by
      push_cast; simp
    rw [e2, Int.floor_natCast]
  | negSucc k =>
    have h1 : (Int.negSucc k).toNat = 0 := rfl
    have h2 : (-(Int.negSucc k)).toNat = k + 1 := rfl
    rw [h1, h2, Nat.shiftLeft_zero, Nat.shiftRight_eq_div_pow]
    have e2 : ((if false = true then (-1 : ℚ) else 1) * (m : ℚ) * 2 ^ (Int.negSucc k)) =
        ((m : Int) : ℚ) / ((2 ^ (k + 1) : Nat) : ℚ) := by
      rw [Int.negSucc_eq, zpow_neg]
      have : ((2 : ℚ) ^ ((k : Int) + 1)) = 2 ^ (k + 1) := by
        rw [← zpow_natCast]; push_cast; rfl
      rw [this]
      push_cast
      simp [div_eq_mul_inv]
    rw [e2, Rat.floor_intCast_div_natCast]
    push_cast
    rfl

theorem Fp.toRat_neg_zero (a : Fp) (h : a.neg = true) (h0 : 0 ≤ a.toRat) : a.m = 0 := by
  unfold Fp.toRat at h0
  rw [if_pos h] at h0
  by_contra hm
  have hm' : (0 : ℚ) < (a.m : ℚ) := by exact_mod_cast Nat.pos_of_ne_zero hm
  have hp : (0 : ℚ) < (2 : ℚ) ^ a.e := zpow_pos (by norm_num) _
  have : (-1 : ℚ) * (a.m : ℚ) * 2 ^ a.e < 0 := by
    have := mul_pos hm' hp
    linarith
  linarith

theorem Fp.toUInt16_eq_floor (a : Fp) (h0 : 0 ≤ a.toRat) (h1 : a.toRat < 65536) :
    a.toUInt16 = some ⌊a.toRat⌋.toNat := by
  cases hneg : a.neg with
  | false =>
    have ht := Fp.trunc_eq_floor a hneg
    have hlt : ⌊a.toRat⌋ < 65536 := Int.floor_lt.2 (by exact_mod_cast h1)
    have htn : a.trunc = ⌊a.toRat⌋.toNat := by omega
    unfold Fp.toUInt16
    rw [if_neg, htn]
    rintro (⟨hn, -⟩ | hbig)
    · rw [hneg] at hn
      exact Bool.false_ne_true hn
    · omega
  | true =>
    have hm := Fp.toRat_neg_zero a hneg h0
    have ht : a.trunc = 0 := by
      unfold Fp.trunc
      rw [hm, Nat.zero_shiftLeft, Nat.zero_shiftRight]
    have hr : a.toRat = 0 := by
      unfold Fp.toRat
      rw [hm]
      simp
    unfold Fp.toUInt16
    rw [if_neg, ht, hr]
    · simp
    · rw [ht]
      simp

/-- Known bit patterns: 0.1 is `0x3FB999999999999A`, 3.7 is `0x400D99999999999A` as a
`double` and `0x406CCCCD` as a `float`, `1001 / 1000.0` is `0x3FF004189374BC6A`, and 1000
times that is `0x408F47FFFFFFFFFF`, the `double` just below 1001. -/
theorem binary_test_vectors :
    Fp.ofRatio binary64 1 10 = ⟨false, 0x1999999999999A, -56⟩ ∧
    Fp.ofRatio binary64 37 10 = ⟨false, 0x1D99999999999A, -51⟩ ∧
    sampleVoltage = ⟨false, 0xECCCCD, -22⟩ ∧
    Fp.div binary64 (Fp.ofNat binary64 1001) (Fp.ofRatio binary64 1000 1) =
      ⟨false, 0x1004189374BC6A, -52⟩ ∧
    Fp.mul binary64 (Fp.ofNat binary64 1000) ⟨false, 0x1004189374BC6A, -52⟩ =
      ⟨false, 0x1F47FFFFFFFFFF, -43⟩ := by
  set_option maxRecDepth 8000 in decide

theorem sampleVoltage_word :
    Fp.toUInt16 (Fp.mul binary32 sampleVoltage (Fp.ofNat binary32 1000)) = some 3700 := by
  decide

/-- C5: `setAlarmVoltage` multiplies the voltage by 1000 (in `float`) and passes the
product, truncated, as the 16-bit word: whenever the product `v * 1000` lies in
`[0, 65536)` the call is one `write16` of its integer part to the alarm-voltage register,
and `setAlarmVoltage(3.7)` writes the word 3700, data bytes `0x74` then `0x0E`. -/
theorem setAlarmVoltage_millivolts (tw : TwoWire) (hdr : Header) (s : State) (v : Fp)
    (h0 : 0 ≤ (Fp.mul binary32 v (Fp.ofNat binary32 1000)).toRat)
    (h1 : (Fp.mul binary32 v (Fp.ofNat binary32 1000)).toRat < 65536) :
    setAlarmVoltage tw hdr v s = some (write16 tw hdr.LC709203F_RW_ALARMVOLT
      ⌊(Fp.mul binary32 v (Fp.ofNat binary32 1000)).toRat⌋.toNat s) ∧
    ⌊(Fp.mul binary32 v (Fp.ofNat binary32 1000)).toRat⌋.toNat < 65536 ∧
    setAlarmVoltage tw hdr sampleVoltage s =
      some (write16 tw hdr.LC709203F_RW_ALARMVOLT 3700 s) ∧
    (write16 tw hdr.LC709203F_RW_ALARMVOLT 3700 s).wire = s.wire ++
      [.beginTransmission s.i2c_address, .write (hdr.LC709203F_RW_ALARMVOLT % 256),
       .write 0x74, .write 0x0E,
       .write (crc8 [0x16, hdr.LC709203F_RW_ALARMVOLT % 256, 0x74, 0x0E]),
       .endTransmission true] := by
  refine ⟨?_, ?_, ?_, ?_⟩
  · unfold setAlarmVoltage
    rw [Fp.toUInt16_eq_floor _ h0 h1]
  · have hlt : ⌊(Fp.mul binary32 v (Fp.ofNat binary32 1000)).toRat⌋ < 65536 :=
      Int.floor_lt.2 (by exact_mod_cast h1)
    omega
  · unfold setAlarmVoltage
    rw [sampleVoltage_word]
  · rw [write16_frame]
    rfl

theorem setAlarmVoltage_millivolts_witness :
    0 ≤ (Fp.mul binary32 sampleVoltage (Fp.ofNat binary32 1000)).toRat ∧
    (Fp.mul binary32 sampleVoltage (Fp.ofNat binary32 1000)).toRat < 65536 ∧
    setAlarmVoltage (fun _ => 0) sampleHeader sampleVoltage ⟨0x0B, []⟩ =
      some (write16 (fun _ => 0) sampleHeader.LC709203F_RW_ALARMVOLT
        ⌊(Fp.mul binary32 sampleVoltage (Fp.ofNat binary32 1000)).toRat⌋.toNat ⟨0x0B, []⟩) :=
  have hm : Fp.mul binary32 sampleVoltage (Fp.ofNat binary32 1000) = ⟨false, 15155200, -12⟩ := by
    decide
  have h0 : 0 ≤ (Fp.mul binary32 sampleVoltage (Fp.ofNat binary32 1000)).toRat := by
    rw [hm]
    norm_num [Fp.toRat]
  have h1 : (Fp.mul binary32 sampleVoltage (Fp.ofNat binary32 1000)).toRat < 65536 := by
    rw [hm]
    norm_num [Fp.toRat]
  ⟨h0, h1, (setAlarmVoltage_millivolts (fun _ => 0) sampleHeader ⟨0x0B, []⟩ sampleVoltage h0 h1).1⟩

/-- C9: the raw word 1001 (bytes `0xE9`, `0x03` from the transport) makes
`cellVoltage_mV` return 1000: `1001 / 1000.0` rounds below 1.001, the product with 1000
rounds below 1001, and the conversion to `uint16_t` truncates. -/
theorem cellVoltage_mV_1001 :
    toUInt16 (read16 (sampleWire 0xE9 0x03) sampleHeader.LC709203F_RO_CELLVOLTAGE ⟨0x0B, []⟩).1
      = 1001 ∧
    (cellVoltage_mV (sampleWire 0xE9 0x03) sampleHeader ⟨0x0B, []⟩).1 = some 1000 := by
  constructor
  · decide
  · set_option maxRecDepth 8000 in decide

/-! ## Read transactions: calls, determinism, address -/

theorem read16_wire (tw : TwoWire) (regAddress : Nat) (s : State) :
    (read16 tw regAddress s).2.wire = s.wire ++
      [.beginTransmission s.i2c_address, .write (regAddress % 256), .endTransmission false,
       .requestFrom s.i2c_address 2, .read, .read] := by
  simp [read16, wireCall]

theorem read16_i2c_address (tw : TwoWire) (regAddress : Nat) (s : State) :
    (read16 tw regAddress s).2.i2c_address = s.i2c_address := by
  simp [read16, wireCall]

/-- C11: for an 8-bit register address `r`, `read16` makes exactly these calls and no
other: `beginTransmission(i2c_address)`, `write(r)`, `endTransmission(false)`,
`requestFrom(i2c_address, 2)`, `read()`, `read()`; the only byte written is `r`, so no
checksum is sent, and the result is the word whose low byte is the first value read and
whose high byte is the second, whatever these are, so none is checked. -/
theorem read16_sequence (tw : TwoWire) (r : Nat) (s : State) (hr : r < 256) :
    (read16 tw r s).2.wire = s.wire ++
      [.beginTransmission s.i2c_address, .write r, .endTransmission false,
       .requestFrom s.i2c_address 2, .read, .read] ∧
    dataBytes (issued s (read16 tw r s).2) = [r] ∧
    (read16 tw r s).1 = toInt16 (word
      (toUInt8 (tw (s.wire ++ [.beginTransmission s.i2c_address, .write r,
        .endTransmission false, .requestFrom s.i2c_address 2, .read, .read])))
      (toUInt8 (tw (s.wire ++ [.beginTransmission s.i2c_address, .write r,
        .endTransmission false, .requestFrom s.i2c_address 2, .read])))) := by
  have hwire : (read16 tw r s).2.wire = s.wire ++
      [.beginTransmission s.i2c_address, .write r, .endTransmission false,
       .requestFrom s.i2c_address 2, .read, .read] := by
    rw [read16_wire, Nat.mod_eq_of_lt hr]
  refine ⟨hwire, ?_, ?_⟩
  · rw [issued_append s _ _ hwire]
    simp [dataBytes]
  · have hd : Delivers tw s r
        (tw (s.wire ++ [.beginTransmission s.i2c_address, .write r,
          .endTransmission false, .requestFrom s.i2c_address 2, .read]))
        (tw (s.wire ++ [.beginTransmission s.i2c_address, .write r,
          .endTransmission false, .requestFrom s.i2c_address 2, .read, .read])) := by
      unfold Delivers
      rw [Nat.mod_eq_of_lt hr]
      exact ⟨rfl, rfl⟩
    exact read16_value tw r s _ _ hd

theorem read16_sequence_witness :
    (0x09 : Nat) < 256 ∧
    (read16 (sampleWire 0xE9 0x03) 0x09 ⟨0x0B, []⟩).2.wire = [] ++
      [.beginTransmission 0x0B, .write 0x09, .endTransmission false,
       .requestFrom 0x0B 2, .read, .read] ∧
    dataBytes (issued ⟨0x0B, []⟩ (read16 (sampleWire 0xE9 0x03) 0x09 ⟨0x0B, []⟩).2) = [0x09] :=
  have h := read16_sequence (sampleWire 0xE9 0x03) 0x09 ⟨0x0B, []⟩ (by decide)
  ⟨by decide, h.1, h.2.1⟩

theorem read16_answer (tw : TwoWire) (dev : Nat → Int × Int) (h : AnswersByRegister tw dev)
    (regAddress : Nat) (s : State) :
    (read16 tw regAddress s).1 =
      toInt16 (word (toUInt8 (dev (regAddress % 256)).2) (toUInt8 (dev (regAddress % 256)).1)) :=
  read16_value tw regAddress s _ _ (h s regAddress)

theorem registerStub_answers (dev : Nat → Int × Int) : AnswersByRegister (registerStub dev) dev := by
  intro s regAddress
  simp [Delivers, registerStub, List.reverse_append]

/-- C12: with a deterministic transport that answers the same register read with the same
two bytes, each read operation (`getICversion`, `cellVoltage_mV`,
`cellRemainingPercent10`, `cellStateOfCharge`, `getCellTemperature`,
`getThermistorBeta`) called twice in a row returns the same value both times. -/
theorem reads_idempotent (tw : TwoWire) (hdr : Header) (s : State) (dev : Nat → Int × Int)
    (h : AnswersByRegister tw dev) :
    (getICversion tw hdr (getICversion tw hdr s).2).1 = (getICversion tw hdr s).1 ∧
    (cellVoltage_mV tw hdr (cellVoltage_mV tw hdr s).2).1 = (cellVoltage_mV tw hdr s).1 ∧
    (cellRemainingPercent10 tw hdr (cellRemainingPercent10 tw hdr s).2).1 =
      (cellRemainingPercent10 tw hdr s).1 ∧
    (cellStateOfCharge tw hdr (cellStateOfCharge tw hdr s).2).1 =
      (cellStateOfCharge tw hdr s).1 ∧
    (getCellTemperature tw hdr (getCellTemperature tw hdr s).2).1 =
      (getCellTemperature tw hdr s).1 ∧
    (getThermistorBeta tw hdr (getThermistorBeta tw hdr s).2).1 =
      (getThermistorBeta tw hdr s).1 := by
  refine ⟨?_, ?_, ?_, ?_, ?_, ?_⟩
  · simp only [getICversion, read16_answer tw dev h]
  · simp only [cellVoltage_mV, read16_answer tw dev h]
  · simp only [cellRemainingPercent10, read16_answer tw dev h]
  · simp only [cellStateOfCharge, read16_answer tw dev h]
  · simp only [getCellTemperature, read16_answer tw dev h]
  · simp only [getThermistorBeta, read16_answer tw dev h]

theorem reads_idempotent_witness :
    AnswersByRegister (registerStub (fun r => ((r : Int), 0x0F))) (fun r => ((r : Int), 0x0F)) ∧
    (getICversion (registerStub (fun r => ((r : Int), 0x0F))) sampleHeader
        (getICversion (registerStub (fun r => ((r : Int), 0x0F))) sampleHeader ⟨0x0B, []⟩).2).1 =
      (getICversion (registerStub (fun r => ((r : Int), 0x0F))) sampleHeader ⟨0x0B, []⟩).1 :=
  ⟨registerStub_answers _,
    (reads_idempotent (registerStub (fun r => ((r : Int), 0x0F))) sampleHeader ⟨0x0B, []⟩
      (fun r => ((r : Int), 0x0F)) (registerStub_answers _)).1⟩

/-! ## The bus address -/

theorem write16_keeps_address (tw : TwoWire) (regAddress data : Nat) (s : State) :
    (write16 tw regAddress data s).i2c_address = s.i2c_address ∧
    ∀ c ∈ issued s (write16 tw regAddress data s), ∀ a, c.address = some a →
      a = s.i2c_address := by
  refine ⟨write16_i2c_address tw regAddress data s, ?_⟩
  rw [issued_append s _ _ (write16_wire tw regAddress data s)]
  intro c hc a ha
  simp only [List.mem_cons, List.mem_singleton, List.not_mem_nil, or_false] at hc
  rcases hc with rfl | rfl | rfl | rfl | rfl | rfl <;> simp_all [WireCall.address]

theorem read16_keeps_address (tw : TwoWire) (regAddress : Nat) (s : State) :
    (read16 tw regAddress s).2.i2c_address = s.i2c_address ∧
    ∀ c ∈ issued s (read16 tw regAddress s).2, ∀ a, c.address = some a →
      a = s.i2c_address := by
  refine ⟨read16_i2c_address tw regAddress s, ?_⟩
  rw [issued_append s _ _ (read16_wire tw regAddress s)]
  intro c hc a ha
  simp only [List.mem_cons, List.mem_singleton, List.not_mem_nil, or_false] at hc
  rcases hc with rfl | rfl | rfl | rfl | rfl | rfl <;> simp_all [WireCall.address]

theorem begin_keeps_address (tw : TwoWire) (hdr : Header) (s : State) :
    (begin tw hdr s).2.i2c_address = s.i2c_address ∧
    ∀ c ∈ issued s (begin tw hdr s).2, ∀ a, c.address = some a → a = s.i2c_address := by
  have hwire : (begin tw hdr s).2.wire = s.wire ++ ([WireCall.begin] ++
      writeFrame s.i2c_address (hdr.LC709203F_RW_POWERMODE % 256)
        (hdr.LC709203F_POWER_OPERATE % 65536) ++
      writeFrame s.i2c_address (hdr.LC709203F_RW_APA % 256)
        (hdr.LC709203F_APA_500MAH % 65536) ++
      writeFrame s.i2c_address (hdr.LC709203F_RW_STATUSBIT % 256)
        (hdr.LC709203F_TEMPERATURE_THERMISTOR % 65536)) := by
    simp only [begin, setPowerMode, setCellCapacity, setTemperatureMode, write16_frame,
      write16_i2c_address, Nat.mod_mod, wireCall, List.append_assoc]
  constructor
  · simp only [begin, setPowerMode, setCellCapacity, setTemperatureMode, write16_i2c_address,
      wireCall]
  · rw [issued_append s _ _ hwire]
    intro c hc a ha
    simp only [writeFrame, List.mem_append, List.mem_cons, List.mem_singleton,
      List.not_mem_nil, or_false] at hc
    rcases hc with ((rfl | h) | h) | h
    · simp [WireCall.address] at ha
    all_goals
      rcases h with rfl | rfl | rfl | rfl | rfl | rfl <;> simp_all [WireCall.address]

/-- C13: no operation of the driver changes `i2c_address`, and every
`beginTransmission` and `requestFrom` that an operation issues names the value that
`i2c_address` had when the operation started. -/
theorem i2c_address_immutable (tw : TwoWire) (hdr : Header) (op : Operation) (s s' : State)
    (h : op.run tw hdr s = some s') :
    s'.i2c_address = s.i2c_address ∧
    ∀ c ∈ issued s s', ∀ a, c.address = some a → a = s.i2c_address := by
  cases op with
  | begin => cases h; exact begin_keeps_address tw hdr s
  | getICversion =>
    simp only [Operation.run, LC709203F.getICversion, Option.some.injEq] at h
    subst h
    exact read16_keeps_address tw _ s
  | initRSOC => cases h; exact write16_keeps_address tw _ _ s
  | cellVoltage_mV =>
    simp only [Operation.run, LC709203F.cellVoltage_mV, Option.some.injEq] at h
    subst h
    exact read16_keeps_address tw _ s
  | cellRemainingPercent10 =>
    simp only [Operation.run, LC709203F.cellRemainingPercent10, Option.some.injEq] at h
    subst h
    exact read16_keeps_address tw _ s
  | cellStateOfCharge =>
    simp only [Operation.run, LC709203F.cellStateOfCharge, Option.some.injEq] at h
    subst h
    exact read16_keeps_address tw _ s
  | getCellTemperature =>
    simp only [Operation.run, LC709203F.getCellTemperature, Option.some.injEq] at h
    subst h
    exact read16_keeps_address tw _ s
  | setTemperatureMode t => cases h; exact write16_keeps_address tw _ _ s
  | setCellCapacity apa => cases h; exact write16_keeps_address tw _ _ s
  | setAlarmRSOC percent => cases h; exact write16_keeps_address tw _ _ s
  | setAlarmVoltage voltage =>
    simp only [Operation.run, setAlarmVoltage] at h
    split at h
    · exact absurd h (by simp)
    · cases h; exact write16_keeps_address tw _ _ s
  | setPowerMode t => cases h; exact write16_keeps_address tw _ _ s
  | setCellProfile t => cases h; exact write16_keeps_address tw _ _ s
  | getThermistorBeta =>
    simp only [Operation.run, LC709203F.getThermistorBeta, Option.some.injEq] at h
    subst h
    exact read16_keeps_address tw _ s
  | setThermistorB beta => cases h; exact write16_keeps_address tw _ _ s
  | write16 regAddress data => cases h; exact write16_keeps_address tw _ _ s
  | read16 regAddress => cases h; exact read16_keeps_address tw _ s

theorem i2c_address_immutable_witness :
    Operation.run (fun _ => 0) sampleHeader .begin (initialState sampleHeader) =
      some (begin (fun _ => 0) sampleHeader (initialState sampleHeader)).2 ∧
    (begin (fun _ => 0) sampleHeader (initialState sampleHeader)).2.i2c_address =
      (initialState sampleHeader).i2c_address ∧
    ∀ c ∈ issued (initialState sampleHeader)
        (begin (fun _ => 0) sampleHeader (initialState sampleHeader)).2,
      ∀ a, c.address = some a → a = (initialState sampleHeader).i2c_address :=
  ⟨rfl, i2c_address_immutable (fun _ => 0) sampleHeader .begin (initialState sampleHeader) _ rfl⟩

/-! ## Reading without validation -/

theorem read16_delivered (tw : TwoWire) (regAddress lo hi : Nat) (s : State)
    (hlo : lo < 256) (hhi : hi < 256) (hd : Delivers tw s regAddress (lo : Int) (hi : Int)) :
    toUInt16 (read16 tw regAddress s).1 = hi * 256 + lo := by
  have h := read16_word tw regAddress (hi * 256 + lo) s (by omega)
    (by
      have e1 : (hi * 256 + lo) % 256 = lo := by omega
      have e2 : (hi * 256 + lo) / 256 = hi := by omega
      rw [e1, e2]
      exact hd)
  rw [h]
  exact toUInt16_toInt16 _ (by omega)

/-- C14, as the code has it: `cellStateOfCharge` returns the raw 16-bit word of the RSOC
register unchanged: when the transport delivers the bytes `lo` then `hi`, the value is
`hi * 256 + lo`, between 0 and 65535, and it is at most 100 exactly when `hi = 0` and
`lo ≤ 100`. -/
theorem cellStateOfCharge_raw (tw : TwoWire) (hdr : Header) (s : State) (lo hi : Nat)
    (hlo : lo < 256) (hhi : hi < 256)
    (hd : Delivers tw s hdr.LC709203F_RW_RSOC (lo : Int) (hi : Int)) :
    (cellStateOfCharge tw hdr s).1 = hi * 256 + lo ∧
    (cellStateOfCharge tw hdr s).1 ≤ 65535 ∧
    ((cellStateOfCharge tw hdr s).1 ≤ 100 ↔ hi = 0 ∧ lo ≤ 100) := by
  have h : (cellStateOfCharge tw hdr s).1 = hi * 256 + lo := by
    simp only [cellStateOfCharge]
    exact read16_delivered tw _ lo hi s hlo hhi hd
  rw [h]
  refine ⟨rfl, by omega, by omega⟩

theorem cellStateOfCharge_raw_witness :
    (0x64 : Nat) < 256 ∧ (0x00 : Nat) < 256 ∧
    (cellStateOfCharge (sampleWire 0x64 0x00) sampleHeader ⟨0x0B, []⟩).1 = 0x00 * 256 + 0x64 :=
  ⟨by decide, by decide,
    (cellStateOfCharge_raw (sampleWire 0x64 0x00) sampleHeader ⟨0x0B, []⟩ 0x64 0x00
      (by decide) (by decide) (sampleWire_delivers _ _ _ _)).1⟩

/-- C14, as stated, fails: when the transport delivers the bytes `0x65`, `0x00` for the
RSOC register, `cellStateOfCharge` returns 101, which is above 100. -/
theorem cellStateOfCharge_above_100 :
    (cellStateOfCharge (sampleWire 0x65 0x00) sampleHeader ⟨0x0B, []⟩).1 = 101 ∧
    ¬ ((cellStateOfCharge (sampleWire 0x65 0x00) sampleHeader ⟨0x0B, []⟩).1 ≤ 100) := by
  have h : (cellStateOfCharge (sampleWire 0x65 0x00) sampleHeader ⟨0x0B, []⟩).1 = 101 := by
    decide
  rw [h]
  exact ⟨rfl, by decide⟩

/-- C18: `read16` keeps the low 8 bits of each value that `Wire.read` returns; when both
reads return `-1`, `read16` returns `-1` and each raw getter (`getICversion`,
`cellRemainingPercent10`, `cellStateOfCharge`, `getCellTemperature`,
`getThermistorBeta`) returns 65535, which is not 0: the result is an ordinary value. -/
theorem read16_no_data (tw : TwoWire) (hdr : Header) (s : State)
    (hd : ∀ regAddress, Delivers tw s regAddress (-1) (-1)) :
    (∀ regAddress, (read16 tw regAddress s).1 = -1) ∧
    (getICversion tw hdr s).1 = 65535 ∧
    (cellRemainingPercent10 tw hdr s).1 = 65535 ∧
    (cellStateOfCharge tw hdr s).1 = 65535 ∧
    (getCellTemperature tw hdr s).1 = 65535 ∧
    (getThermistorBeta tw hdr s).1 = 65535 ∧
    (65535 : Nat) ≠ 0 ∧
    (∀ regAddress b0 b1, Delivers tw s regAddress b0 b1 →
      (read16 tw regAddress s).1 = toInt16 (b1 % 256 * 256 + b0 % 256)) := by
  have key : ∀ regAddress, (read16 tw regAddress s).1 = -1 := fun regAddress => by
    rw [read16_value tw regAddress s _ _ (hd regAddress)]
    decide
  have key2 : ∀ regAddress, toUInt16 (read16 tw regAddress s).1 = 65535 := fun regAddress => by
    rw [key regAddress]
    decide
  refine ⟨key, ?_, ?_, ?_, ?_, ?_, by decide, ?_⟩
  · simp only [getICversion]; exact key2 _
  · simp only [cellRemainingPercent10]; exact key2 _
  · simp only [cellStateOfCharge]; exact key2 _
  · simp only [getCellTemperature]; exact key2 _
  · simp only [getThermistorBeta]; exact key2 _
  · intro regAddress b0 b1 h
    rw [read16_value tw regAddress s _ _ h]
    have h0 : toUInt8 b0 < 256 := by unfold toUInt8; omega
    have h1 : toUInt8 b1 < 256 := by unfold toUInt8; omega
    rw [word_eq _ _ h1 h0]
    congr 1
    unfold toUInt8
    push_cast
    omega

theorem read16_no_data_witness :
    (∀ regAddress, Delivers (sampleWire (-1) (-1)) ⟨0x0B, []⟩ regAddress (-1) (-1)) ∧
    (read16 (sampleWire (-1) (-1)) 0x0D ⟨0x0B, []⟩).1 = -1 ∧
    (cellStateOfCharge (sampleWire (-1) (-1)) sampleHeader ⟨0x0B, []⟩).1 = 65535 :=
  have hd : ∀ regAddress, Delivers (sampleWire (-1) (-1)) ⟨0x0B, []⟩ regAddress (-1) (-1) :=
    fun regAddress => sampleWire_delivers regAddress 0x0B _ _
  have h := read16_no_data (sampleWire (-1) (-1)) sampleHeader ⟨0x0B, []⟩ hd
  ⟨hd, h.1 0x0D, h.2.2.2.1⟩

/-! ## Further properties of `crc8` -/

/-- C15: on the nine ASCII bytes of `"123456789"`, `crc8` returns `0xF4`, the published
check value of CRC-8 with polynomial `0x07` and initial value `0x00`. -/
theorem crc8_check_value :
    crc8 [0x31, 0x32, 0x33, 0x34, 0x35, 0x36, 0x37, 0x38, 0x39] = 0xF4 := by
  set_option maxRecDepth 100000 in decide

theorem crc8Loop_append (a b : List Nat) (crc : Nat) :
    crc8Loop (a ++ b) crc = crc8Loop b (crc8Loop a crc) := by
  induction a generalizing crc with
  | nil => rfl
  | cons d rest ih =>
    rw [List.cons_append]
    simp only [crc8Loop]
    exact ih _

theorem crc8Bits_zero : crc8Bits 8 0 = 0 := by decide

theorem crc8_append_crc8 (d : List Nat) : crc8 (d ++ [crc8 d]) = 0x00 := by
  unfold crc8
  rw [crc8Loop_append]
  simp only [crc8Loop, Nat.xor_self, Nat.zero_mod]
  exact crc8Bits_zero

theorem crcArray_eq (regAddress data : Nat) :
    crcArray regAddress data =
      [0x16, regAddress % 256, lowByte (data % 65536), highByte (data % 65536)] ++
      [crc8 [0x16, regAddress % 256, lowByte (data % 65536), highByte (data % 65536)]] := by
  simp [crcArray]

/-- C16: appending the checksum gives a zero residue: `crc8 (d ++ [crc8 d]) = 0x00` for
every byte sequence `d`; the array `crcArray` of `write16` is `0x16`, the register
address, the low byte and the high byte followed by their checksum, its last four
entries are the data bytes written, and `crc8` over all five entries is `0x00`. -/
theorem crc8_zero_residue (d : List Nat) (regAddress data : Nat) (tw : TwoWire) (s : State) :
    crc8 (d ++ [crc8 d]) = 0x00 ∧
    crc8 (crcArray regAddress data) = 0x00 ∧
    (crcArray regAddress data).length = 5 ∧
    dataBytes (issued s (write16 tw regAddress data s)) = (crcArray regAddress data).drop 1 := by
  refine ⟨crc8_append_crc8 d, ?_, ?_, ?_⟩
  · rw [crcArray_eq]
    exact crc8_append_crc8 _
  · rw [crcArray_eq]
    rfl
  · rw [issued_append s _ _ (write16_wire tw regAddress data s), crcArray_eq]
    simp [dataBytes]

/-! ## Single-bit errors -/

section Standard
open Polynomial

theorem bitsPoly_two_pow (j : Nat) : bitsPoly (2 ^ j) = X ^ j := by
  ext i
  rw [coeff_bitsPoly, Nat.testBit_two_pow, Polynomial.coeff_X_pow]
  by_cases h : j = i
  · simp [h]
  · have h' : ¬ i = j := fun e => h e.symm
    simp [h, h']

theorem messagePoly_foldl_sub (data : List Nat) (p p' : (ZMod 2)[X]) :
    data.foldl (fun p b => p * X ^ 8 + bitsPoly b) p -
      data.foldl (fun p b => p * X ^ 8 + bitsPoly b) p' = (p - p') * X ^ (8 * data.length) := by
  induction data generalizing p p' with
  | nil => simp
  | cons d rest ih =>
    simp only [List.foldl_cons, List.length_cons]
    rw [ih, Nat.mul_succ, pow_add]
    ring

theorem messagePoly_flip (pre post : List Nat) (d j : Nat) :
    messagePoly (pre ++ (d ^^^ 2 ^ j) :: post) - messagePoly (pre ++ d :: post) =
      X ^ (j + 8 * post.length) := by
  unfold messagePoly
  rw [List.foldl_append, List.foldl_append, List.foldl_cons, List.foldl_cons,
    messagePoly_foldl_sub, bitsPoly_xor, bitsPoly_two_pow, pow_add]
  ring

theorem crcPoly_coeff_zero : crcPoly.coeff 0 = 1 := by
  unfold crcPoly
  simp [Polynomial.coeff_X_pow, Polynomial.coeff_X, Polynomial.coeff_one]

theorem crcPoly_not_dvd_X_pow (n : Nat) : ¬ crcPoly ∣ (X : (ZMod 2)[X]) ^ n := by
  rintro ⟨q, hq⟩
  have hX : (X : (ZMod 2)[X]) ^ n ≠ 0 := pow_ne_zero _ Polynomial.X_ne_zero
  have hq0 : q ≠ 0 := by
    rintro rfl
    rw [mul_zero] at hq
    exact hX hq
  have hc0 : crcPoly ≠ 0 := crcPoly_monic.ne_zero
  have ht : (crcPoly * q).natTrailingDegree = crcPoly.natTrailingDegree + q.natTrailingDegree :=
    Polynomial.natTrailingDegree_mul hc0 hq0
  have hd : (crcPoly * q).natDegree = crcPoly.natDegree + q.natDegree :=
    crcPoly_monic.natDegree_mul' hq0
  have ht0 : crcPoly.natTrailingDegree = 0 :=
    Polynomial.natTrailingDegree_eq_zero.2 (Or.inr (by rw [crcPoly_coeff_zero]; exact one_ne_zero))
  have hd8 : crcPoly.natDegree = 8 := Polynomial.natDegree_eq_of_degree_eq_some crcPoly_degree
  rw [← hq, Polynomial.natTrailingDegree_X_pow] at ht
  rw [← hq, Polynomial.natDegree_X_pow] at hd
  have hle := Polynomial.natTrailingDegree_le_natDegree q
  omega

theorem crc8_flip_ne (pre post : List Nat) (d j : Nat)
    (hpre : ∀ b ∈ pre, b < 256) (hpost : ∀ b ∈ post, b < 256) (hd : d < 256) (hj : j < 8) :
    crc8 (pre ++ d :: post) ≠ crc8 (pre ++ (d ^^^ 2 ^ j) :: post) := by
  intro heq
  have hd' : d ^^^ 2 ^ j < 256 :=
    Nat.xor_lt_two_pow (n := 8) hd (Nat.pow_lt_pow_right (by norm_num) hj)
  have ha : ∀ b ∈ pre ++ d :: post, b < 256 := by
    intro b hb
    rcases List.mem_append.1 hb with h | h
    · exact hpre b h
    · rcases List.mem_cons.1 h with rfl | h
      · exact hd
      · exact hpost b h
  have hb : ∀ b ∈ pre ++ (d ^^^ 2 ^ j) :: post, b < 256 := by
    intro b hb
    rcases List.mem_append.1 hb with h | h
    · exact hpre b h
    · rcases List.mem_cons.1 h with rfl | h
      · exact hd'
      · exact hpost b h
  have h1 := crc8_poly _ ha
  have h2 := crc8_poly _ hb
  rw [heq, h2] at h1
  unfold standardCrc8 at h1
  have ea := Polynomial.modByMonic_add_div (messagePoly (pre ++ d :: post) * X ^ 8) crcPoly_monic
  have eb := Polynomial.modByMonic_add_div
    (messagePoly (pre ++ (d ^^^ 2 ^ j) :: post) * X ^ 8) crcPoly_monic
  have hdiff : X ^ (j + 8 * post.length + 8) =
      crcPoly * ((messagePoly (pre ++ (d ^^^ 2 ^ j) :: post) * X ^ 8) /ₘ crcPoly -
        (messagePoly (pre ++ d :: post) * X ^ 8) /ₘ crcPoly) := by
    rw [pow_add, ← messagePoly_flip pre post d j]
    rw [h1] at eb
    linear_combination ea - eb
  exact crcPoly_not_dvd_X_pow _ ⟨_, hdiff⟩

/-- C17: `crc8` detects every single-bit error: two byte sequences of the same length
that differ in exactly one bit have different `crc8` values; so for the checksum input
`[0x16, r, lo, hi]` of a `write16` frame, flipping any one bit of the register address,
of the low byte or of the high byte changes the checksum byte. -/
theorem crc8_detects_single_bit (a b : List Nat) (r lo hi j : Nat)
    (ha : ∀ x ∈ a, x < 256) (hab : DifferInOneBit a b)
    (hr : r < 256) (hlo : lo < 256) (hhi : hi < 256) (hj : j < 8) :
    a.length = b.length ∧
    crc8 a ≠ crc8 b ∧
    crc8 [0x16, r ^^^ 2 ^ j, lo, hi] ≠ crc8 [0x16, r, lo, hi] ∧
    crc8 [0x16, r, lo ^^^ 2 ^ j, hi] ≠ crc8 [0x16, r, lo, hi] ∧
    crc8 [0x16, r, lo, hi ^^^ 2 ^ j] ≠ crc8 [0x16, r, lo, hi] := by
  obtain ⟨pre, post, d, k, hk, rfl, rfl⟩ := hab
  have hpre : ∀ x ∈ pre, x < 256 := fun x hx => ha x (List.mem_append_left _ hx)
  have hd : d < 256 := ha d (List.mem_append_right _ (List.mem_cons_self _ _))
  have hpost : ∀ x ∈ post, x < 256 :=
    fun x hx => ha x (List.mem_append_right _ (List.mem_cons_of_mem _ hx))
  have h16 : ∀ x ∈ [0x16], x < 256 := by decide
  refine ⟨by simp, crc8_flip_ne pre post d k hpre hpost hd hk, ?_, ?_, ?_⟩
  · exact (crc8_flip_ne [0x16] [lo, hi] r j h16
      (by intro x hx; simp at hx; rcases hx with rfl | rfl <;> assumption) hr hj).symm
  · exact (crc8_flip_ne [0x16, r] [hi] lo j
      (by intro x hx; simp at hx; rcases hx with rfl | rfl <;> [norm_num; assumption])
      (by intro x hx; simp at hx; rw [hx]; exact hhi) hlo hj).symm
  · exact (crc8_flip_ne [0x16, r, lo] [] hi j
      (by intro x hx; simp at hx; rcases hx with rfl | rfl | rfl <;> [norm_num; assumption; assumption])
      (by intro x hx; simp at hx) hhi hj).symm

theorem crc8_detects_single_bit_witness :
    (∀ x ∈ [0x16, 0x14, 0x74, 0x0E], x < 256) ∧
    DifferInOneBit [0x16, 0x14, 0x74, 0x0E] [0x16, 0x14, 0x75, 0x0E] ∧
    crc8 [0x16, 0x14, 0x74, 0x0E] ≠ crc8 [0x16, 0x14, 0x75, 0x0E] ∧
    crc8 [0x16, 0x14 ^^^ 2 ^ 7, 0x74, 0x0E] ≠ crc8 [0x16, 0x14, 0x74, 0x0E] :=
  have hab : DifferInOneBit [0x16, 0x14, 0x74, 0x0E] [0x16, 0x14, 0x75, 0x0E] :=
    ⟨[0x16, 0x14], [0x0E], 0x74, 0, by decide, rfl, by decide⟩
  have h := crc8_detects_single_bit [0x16, 0x14, 0x74, 0x0E] [0x16, 0x14, 0x75, 0x0E]
    0x14 0x74 0x0E 7 (by decide) hab (by decide) (by decide) (by decide) (by decide)
  ⟨by decide, hab, h.2.1, h.2.2.1⟩

end Standard

end LC709203F
